import Mathlib

/-!
Verification of the tini INI library: a shallow embedding of the
order-preserving map (src/ordered_hashmap.rs), the document model and
serializer (src/lib.rs), and the line parser used by `Ini::from_string`.

Rust strings are modelled as lists of characters.  The two-argument
`parse_line(line, index) -> Result<Parsed, Error>` that `Ini::from_string`
calls is not among the given sources (the parser.rs present is an older
one-argument state-machine variant with a different result type), so it is
modelled from the specification, as marked on its doc comment.
-/

set_option maxRecDepth 4000

deriving instance DecidableEq for Except

namespace Tini

/-- Characters of a Rust `String` / `&str`, modelled as a list of characters. -/
abbrev Str := List Char

/-- Rust `str::trim_start` (whitespace from the front). -/
def trimLeft : Str → Str
  | [] => []
  | c :: rest => if c.isWhitespace then trimLeft rest else c :: rest

/-- Rust `str::trim_end` (whitespace from the back). -/
def trimRight (s : Str) : Str := (trimLeft s.reverse).reverse

/-- Rust `str::trim`. -/
def trim (s : Str) : Str := trimRight (trimLeft s)

/-- The piece of `s` before the first character satisfying `p` (all of `s` when
none does); models `s.split(sep).next().unwrap()`. -/
def takeUntil (p : Char → Bool) : Str → Str
  | [] => []
  | c :: rest => if p c then [] else c :: takeUntil p rest

/-- The piece of `s` after the first character satisfying `p` (empty when none
does); with `takeUntil` this models `s.splitn(2, sep)`. -/
def afterFirst (p : Char → Bool) : Str → Str
  | [] => []
  | c :: rest => if p c then rest else afterFirst p rest

/-- Rust `str::trim_matches(p)`: strip characters satisfying `p` from both ends. -/
def trimMatches (p : Char → Bool) (s : Str) : Str :=
  ((s.dropWhile p).reverse.dropWhile p).reverse

/-- Split at every `'\n'`, keeping empty pieces; auxiliary for `rustLines`. -/
def splitNl : Str → List Str
  | [] => [[]]
  | c :: rest =>
    if c = '\n' then [] :: splitNl rest
    else
      match splitNl rest with
      | [] => [[c]]
      | piece :: more => (c :: piece) :: more

/-- Rust `str::lines()`: split on `'\n'`, drop the one empty piece produced by an
optional final line ending, and strip one trailing `'\r'` from each line. -/
def rustLines (s : Str) : List Str :=
  let pieces := splitNl s
  let pieces := if pieces.getLast? = some [] then pieces.dropLast else pieces
  pieces.map fun l => if l.getLast? = some '\r' then l.dropLast else l

/-- Typed parse failures carrying the 1-based line number (src/error.rs `ParseError`). -/
inductive ParseError where
  | IncorrectSection (line : Nat)
  | IncorrectSyntax (line : Nat)
  | EmptyKey (line : Nat)
deriving DecidableEq, Repr

/-- Classification of one input line: the `Parsed` variant consumed by
`Ini::from_string` (src/lib.rs lines 76-80). -/
inductive Parsed where
  | Section (name : Str)
  | Value (key value : Str)
  | Empty
deriving DecidableEq, Repr

/-- Bracket characters stripped from the ends of a section header. -/
def isBracket (c : Char) : Bool := decide (c = '[') || decide (c = ']')

/-- Modelled from the spec: the two-argument `parse_line(line, index)` returning
`Result<Parsed, Error>` that `Ini::from_string` (src/lib.rs line 76) calls is not
among the sources; src/parser.rs holds an older one-argument state-machine
variant with a different result type.  Following spec §4.2: strip everything
from the first `;` and trim; empty → `Empty`; a leading `[` must pair with a
trailing `]` (else `IncorrectSection`), and bracket characters are stripped from
both ends of the header; otherwise the line must contain `=`, is split at the
first `=` with both sides trimmed, an empty key is `EmptyKey` and a line with no
`=` is `IncorrectSyntax`.  Error line numbers are 1-based (`index + 1`). -/
def parse_line (line : Str) (index : Nat) : Except ParseError Parsed :=
  let content := trim (takeUntil (fun c => decide (c = ';')) line)
  if content.isEmpty then .ok .Empty
  else if content.head? = some '[' then
    if content.getLast? = some ']' then .ok (.Section (trimMatches isBracket content))
    else .error (.IncorrectSection (index + 1))
  else if content.any (fun c => decide (c = '=')) then
    let key := trim (takeUntil (fun c => decide (c = '=')) content)
    let value := trim (afterFirst (fun c => decide (c = '=')) content)
    if key.isEmpty then .error (.EmptyKey (index + 1))
    else .ok (.Value key value)
  else .error (.IncorrectSyntax (index + 1))

/-- Lookup in the backing `std::collections::HashMap`, modelled as an association
list whose own order is never observed except through `OrderedHashMap.keys`. -/
def hmGet {K V : Type} [DecidableEq K] (l : List (K × V)) (k : K) : Option V :=
  (l.find? fun p => decide (p.1 = k)).map Prod.snd

/-- `HashMap::contains_key`. -/
def hmContains {K V : Type} [DecidableEq K] (l : List (K × V)) (k : K) : Bool :=
  l.any fun p => decide (p.1 = k)

/-- `HashMap::insert`: replace the value when the key is present, append the pair
otherwise. -/
def hmInsert {K V : Type} [DecidableEq K] (l : List (K × V)) (k : K) (v : V) :
    List (K × V) :=
  if hmContains l k then l.map fun p => if p.1 = k then (k, v) else p
  else l ++ [(k, v)]

/-- `HashMap::remove`. -/
def hmRemove {K V : Type} [DecidableEq K] (l : List (K × V)) (k : K) : List (K × V) :=
  l.filter fun p => decide (p.1 ≠ k)

/-- Rust `Vec::swap_remove(i)`: move the last element into slot `i` and pop. -/
def swapRemove {α : Type} (l : List α) (i : Nat) : List α :=
  match l.getLast? with
  | none => []
  | some z => (l.set i z).dropLast

/-- src/ordered_hashmap.rs `OrderedHashMap`: a `HashMap` plus a vector of the
keys in the order they were added. -/
structure OrderedHashMap (K V : Type) where
  base : List (K × V)
  keys : List K
deriving DecidableEq

namespace OrderedHashMap

variable {K V : Type} [DecidableEq K]

/-- `OrderedHashMap::new`. -/
def new : OrderedHashMap K V := ⟨[], []⟩

/-- `OrderedHashMap::get`. -/
def get (m : OrderedHashMap K V) (k : K) : Option V := hmGet m.base k

/-- `OrderedHashMap::insert` (src lines 113-118): push the key onto `keys` when
absent, then `HashMap::insert`; returns the map and the previous value. -/
def insert (m : OrderedHashMap K V) (k : K) (v : V) :
    OrderedHashMap K V × Option V :=
  let keys := if hmContains m.base k then m.keys else m.keys ++ [k]
  (⟨hmInsert m.base k v, keys⟩, hmGet m.base k)

/-- `OrderedHashMap::remove` (src lines 131-143): find the key's position in
`keys`, `swap_remove` it there, and remove it from the backing map. -/
def remove (m : OrderedHashMap K V) (k : K) : OrderedHashMap K V × Option V :=
  match m.keys.findIdx? (fun x => decide (x = k)) with
  | some index => (⟨hmRemove m.base k, swapRemove m.keys index⟩, hmGet m.base k)
  | none => (m, none)

/-- The walk of `ordered_hashmap::Iter` (src lines 297-308): look each key up in
the backing map, terminating (not skipping) on a missed key. -/
def iterGo (base : List (K × V)) : List K → List (K × V)
  | [] => []
  | k :: rest =>
    match hmGet base k with
    | some v => (k, v) :: iterGo base rest
    | none => []

/-- `OrderedHashMap::iter` (src lines 160-162), fully elaborated to a list. -/
def iter (m : OrderedHashMap K V) : List (K × V) := iterGo m.base m.keys

/-- `entry(key)` (src lines 225-230) chained with `.or_insert_with(default)` and
a mutation `f` of the entry's value — the way src/lib.rs uses `entry`. -/
def entryModify (m : OrderedHashMap K V) (k : K) (default : V) (f : V → V) :
    OrderedHashMap K V :=
  let keys := if hmContains m.base k then m.keys else m.keys ++ [k]
  ⟨hmInsert m.base k (f ((hmGet m.base k).getD default)), keys⟩

/-- `entry(key)` (src lines 225-230) when the returned `Entry` is dropped
without inserting: `entry` itself pushes the key onto `keys` when it is absent
from the backing map, and the backing map is left unchanged. -/
def entryDrop (m : OrderedHashMap K V) (k : K) : OrderedHashMap K V :=
  ⟨m.base, if hmContains m.base k then m.keys else m.keys ++ [k]⟩

end OrderedHashMap

/-- src/lib.rs line 603: `type Section = OrderedHashMap<String, String>`. -/
abbrev Section := OrderedHashMap Str Str

/-- src/lib.rs `struct Ini`.  The `empty_section` field (a constant empty
section backing `section_iter` on absent names) carries no state and is
omitted. -/
structure Ini where
  document : OrderedHashMap Str Section
  last_section_name : Str
deriving DecidableEq

namespace Ini

/-- `Ini::new` (src lines 68-70): empty document, current section name `""`. -/
def new : Ini := ⟨OrderedHashMap.new, []⟩

/-- `Ini::section` (src lines 230-233): records the name for later `item` calls
without creating anything in the document. -/
def section_ (ini : Ini) (name : Str) : Ini := { ini with last_section_name := name }

/-- `Ini::item` (src lines 248-258):
`document.entry(last_section_name.clone()).or_insert_with(Section::new).insert(name, value)`. -/
def item (ini : Ini) (name value : Str) : Ini :=
  { ini with
      document :=
        ini.document.entryModify ini.last_section_name OrderedHashMap.new
          (fun s => (s.insert name value).1) }

/-- `Ini::get_raw` (src lines 408-410). -/
def get_raw (ini : Ini) (sec key : Str) : Option Str :=
  match ini.document.get sec with
  | some s => s.get key
  | none => none

/-- `impl fmt::Display for Ini` (src lines 549-565): for each section push
`[name]\n`, then `key = value\n` for each pair, then a blank line; finally pop
the last two characters. -/
def toBuffer (ini : Ini) : Str :=
  (ini.document.iter.foldl
    (fun buf ns =>
      (ns.2.iter.foldl
        (fun b kv => b ++ kv.1 ++ [' ', '=', ' '] ++ kv.2 ++ ['\n'])
        (buf ++ ['['] ++ ns.1 ++ [']', '\n'])) ++ ['\n'])
    []).dropLast.dropLast

/-- One line of `Ini::from_string` (src lines 76-80): classify, then fold the
result into the document; errors propagate. -/
def fromStringStep (ini : Ini) (p : Nat × Str) : Except ParseError Ini :=
  match parse_line p.2 p.1 with
  | .error e => .error e
  | .ok (.Section name) => .ok (ini.section_ name)
  | .ok (.Value name value) => .ok (ini.item name value)
  | .ok .Empty => .ok ini

/-- `Ini::from_string` (src lines 73-83): fold the enumerated lines, fail-fast. -/
def from_string (s : Str) : Except ParseError Ini :=
  (rustLines s).enum.foldlM fromStringStep Ini.new

/-- One line of `Ini::from_string` after a successful classification. -/
def applyParsed (ini : Ini) : Parsed → Ini
  | .Section name => ini.section_ name
  | .Value key value => ini.item key value
  | .Empty => ini

/-- Sections of a document as observable data: name together with the ordered
key-value pairs, both in iteration order. -/
def sections (ini : Ini) : List (Str × List (Str × Str)) :=
  ini.document.iter.map fun ns => (ns.1, ns.2.iter)

end Ini

/-- The first parse error over enumerated lines, for stating fail-fast parsing. -/
def firstError (ps : List (Nat × Str)) : Option ParseError :=
  ps.findSome? fun p =>
    match parse_line p.2 p.1 with
    | .error e => some e
    | .ok _ => none

/-- One `key = value` line as the spec's serialization section describes it. -/
def specLine (kv : Str × Str) : Str := kv.1 ++ [' ', '=', ' '] ++ kv.2

/-- One serialized section as the spec describes it: the `[name]` line followed
by one `key = value` line per pair, joined by single newlines. -/
def specBlock (ns : Str × Section) : Str :=
  List.intercalate ['\n'] (('[' :: ns.1 ++ [']']) :: ns.2.iter.map specLine)

/-- The spec's serialization contract: sections in insertion order, exactly one
blank line between consecutive sections, no trailing blank line. -/
def specSerialize (ini : Ini) : Str :=
  List.intercalate ['\n', '\n'] (ini.document.iter.map specBlock)

/-- Maps reachable by the public `OrderedHashMap` operations: `new`, `insert`,
`remove`, and `entry` with either outcome of the returned `Entry` — completed
(`or_insert_with` plus a mutation of the entry's value, covering `or_insert`
and `and_modify`) or dropped without inserting. -/
inductive Reachable {K V : Type} [DecidableEq K] : OrderedHashMap K V → Prop
  | new : Reachable OrderedHashMap.new
  | insert (m : OrderedHashMap K V) (k : K) (v : V) :
      Reachable m → Reachable (m.insert k v).1
  | remove (m : OrderedHashMap K V) (k : K) :
      Reachable m → Reachable (m.remove k).1
  | entry (m : OrderedHashMap K V) (k : K) (d : V) (f : V → V) :
      Reachable m → Reachable (m.entryModify k d f)
  | entryDrop (m : OrderedHashMap K V) (k : K) :
      Reachable m → Reachable (m.entryDrop k)

/-- Maps reachable when every `entry` call is completed with an insertion
(`entry(k).or_insert_with(d)` followed by a mutation of the entry's value, the
only way src/lib.rs itself uses `entry`): no vacant `Entry` is dropped. -/
inductive ReachableCompleted {K V : Type} [DecidableEq K] : OrderedHashMap K V → Prop
  | new : ReachableCompleted OrderedHashMap.new
  | insert (m : OrderedHashMap K V) (k : K) (v : V) :
      ReachableCompleted m → ReachableCompleted (m.insert k v).1
  | remove (m : OrderedHashMap K V) (k : K) :
      ReachableCompleted m → ReachableCompleted (m.remove k).1
  | entry (m : OrderedHashMap K V) (k : K) (d : V) (f : V → V) :
      ReachableCompleted m → ReachableCompleted (m.entryModify k d f)

/-- A structured-insertion step: `Ini::section` or `Ini::item`. -/
inductive BuildOp where
  | sec (name : Str)
  | item (key value : Str)

/-- Run a sequence of structured-insertion steps. -/
def runOps (ini : Ini) : List BuildOp → Ini
  | [] => ini
  | .sec n :: rest => runOps (ini.section_ n) rest
  | .item k v :: rest => runOps (ini.item k v) rest

/-- A section name that the serializer writes back exactly: free of `;` and
newlines, with no bracket character at either end (the parser strips those). -/
def safeNameB (n : Str) : Bool :=
  decide (';' ∉ n) && decide ('\n' ∉ n) &&
  n.head?.all (fun c => !isBracket c) && n.getLast?.all (fun c => !isBracket c)

/-- A key that the serializer writes back exactly: nonempty, free of `;`,
newlines, carriage returns and `=`, whitespace-trimmed, not starting with `[`. -/
def safeKeyB (k : Str) : Bool :=
  decide (k ≠ []) && decide (';' ∉ k) && decide ('\n' ∉ k) && decide ('\r' ∉ k) &&
  decide ('=' ∉ k) && decide (trimLeft k = k) && decide (trimRight k = k) &&
  k.head?.all (fun c => !decide (c = '['))

/-- A value that the serializer writes back exactly: free of `;`, newlines and
carriage returns, and whitespace-trimmed (it may be empty). -/
def safeValueB (v : Str) : Bool :=
  decide (';' ∉ v) && decide ('\n' ∉ v) && decide ('\r' ∉ v) &&
  decide (trimLeft v = v) && decide (trimRight v = v)

/-- The strings of one structured-insertion step are serialization-safe. -/
def safeOpB : BuildOp → Bool
  | .sec n => safeNameB n
  | .item k v => safeKeyB k && safeValueB v

/-- Every string used by a structured-insertion script is serialization-safe. -/
def SafeOps (ops : List BuildOp) : Prop := ∀ op ∈ ops, safeOpB op = true

instance : DecidablePred SafeOps := fun ops => List.decidableBAll _ ops

/-- The lines of one serialized section: the header, then one line per pair. -/
def blockLines (ns : Str × Section) : List Str :=
  ('[' :: ns.1 ++ [']']) :: ns.2.iter.map specLine

/-- The lines of a serialized document: blocks separated by one blank line. -/
def docLines : List (Str × Section) → List Str
  | [] => []
  | [s] => blockLines s
  | s :: s2 :: rest => blockLines s ++ [] :: docLines (s2 :: rest)

/-- The classification `from_string` computes for each line of `docLines`. -/
def parsedSeq : List (Str × Section) → List Parsed
  | [] => []
  | [s] => .Section s.1 :: s.2.iter.map fun kv => .Value kv.1 kv.2
  | s :: s2 :: rest =>
      (.Section s.1 :: s.2.iter.map fun kv => .Value kv.1 kv.2) ++
        .Empty :: parsedSeq (s2 :: rest)

/-- Well-formedness of one stored section: backing map and key sequence agree,
the section is nonempty, and all its strings are serialization-safe. -/
def SecOk (p : Str × Section) : Prop :=
  p.2.base.map Prod.fst = p.2.keys ∧ p.2.keys.Nodup ∧ p.2.base ≠ [] ∧
  safeNameB p.1 = true ∧ ∀ q ∈ p.2.base, safeKeyB q.1 = true ∧ safeValueB q.2 = true

/-- Invariant of documents produced by safe structured insertion. -/
def BuilderInv (ini : Ini) : Prop :=
  ini.document.base.map Prod.fst = ini.document.keys ∧
  ini.document.keys.Nodup ∧
  safeNameB ini.last_section_name = true ∧
  ∀ p ∈ ini.document.base, SecOk p

/-! ### Basic lemmas about the string model -/

theorem takeUntil_idem (p : Char → Bool) (l : Str) :
    takeUntil p (takeUntil p l) = takeUntil p l := by
  induction l with
  | nil => rfl
  | cons c rest ih =>
    by_cases h : p c
    · simp [takeUntil, h]
    · simp [takeUntil, h, ih]

end Tini

namespace Tini

/-- C7: a key-value line whose value trims to empty is not an error: at every
line index, `parse_line "a ="` classifies the line as a key-value pair with key
`"a"` and the empty string as value. -/
theorem parse_line_empty_value (i : Nat) :
    parse_line "a =".data i = .ok (.Value "a".data []) := rfl

/-- C6: parse failures are typed and carry the 1-based line number:
`"[a]\nx = 1\n=2"` gives `EmptyKey` at line 3, `"[a]\nx = 1\ny = 2\n[b"` gives
`IncorrectSection` at line 4, and `"[a]\n\t- b"` gives `IncorrectSyntax` at
line 2. -/
theorem from_string_error_positions :
    Ini.from_string "[a]\nx = 1\n=2".data = .error (.EmptyKey 3) ∧
    Ini.from_string "[a]\nx = 1\ny = 2\n[b".data = .error (.IncorrectSection 4) ∧
    Ini.from_string "[a]\n\t- b".data = .error (.IncorrectSyntax 2) := by
  refine ⟨by decide, by decide, by decide⟩

/-- C10: a key-value line before any section header is attached to the
pseudo-section named `""`: `Ini::new` starts with current section name `""`,
parsing succeeds, the pair is found under section `""`, and that section is the
document's first. -/
theorem default_section_attachment :
    Ini.new.last_section_name = [] ∧
    (Ini.from_string "x = 1\n[s]\ny = 2".data).map
        (fun ini => (ini.document.keys, ini.get_raw [] "x".data)) =
      .ok ([[], "s".data], some "1".data) :=
  ⟨rfl, by decide⟩

/-- C8: everything from the first `;` onward is stripped before a line is
classified (no escape mechanism): parsing any line equals parsing its prefix
before the first `;`; `"name = 100 ; comment"` yields key `"name"` and value
`"100"`, and a pure comment line is `Blank`. -/
theorem comment_stripping :
    (∀ (line : Str) (i : Nat),
        parse_line line i = parse_line (takeUntil (fun c => decide (c = ';')) line) i) ∧
    parse_line "name = 100 ; comment".data 0 = .ok (.Value "name".data "100".data) ∧
    parse_line "; foo".data 0 = .ok .Empty := by
  refine ⟨fun line i => ?_, by decide, by decide⟩
  simp only [parse_line, takeUntil_idem]

/-- C9: for a line whose content (after comment stripping and trimming) starts
with `[`: if it does not end with `]` the result is `IncorrectSection` for that
line, otherwise bracket characters are stripped from both ends — doubled
brackets included — and the line is a section header with the stripped name. -/
theorem section_bracket_rule :
    (∀ (line : Str) (i : Nat),
        (trim (takeUntil (fun c => decide (c = ';')) line)).head? = some '[' →
        ((trim (takeUntil (fun c => decide (c = ';')) line)).getLast? ≠ some ']' →
            parse_line line i = .error (.IncorrectSection (i + 1))) ∧
        ((trim (takeUntil (fun c => decide (c = ';')) line)).getLast? = some ']' →
            parse_line line i =
              .ok (.Section (trimMatches isBracket
                (trim (takeUntil (fun c => decide (c = ';')) line)))))) ∧
    parse_line "[[a]]".data 0 = .ok (.Section "a".data) ∧
    parse_line "[b".data 1 = .error (.IncorrectSection 2) := by
  refine ⟨fun line i h => ?_, by decide, by decide⟩
  have hne : (trim (takeUntil (fun c => decide (c = ';')) line)).isEmpty = false := by
    cases hc : trim (takeUntil (fun c => decide (c = ';')) line) with
    | nil => rw [hc] at h; simp at h
    | cons a t => simp
  constructor
  · intro hnb
    simp only [parse_line, hne, h, Bool.false_eq_true, if_false, if_pos, if_neg hnb]
  · intro hb
    simp only [parse_line, hne, h, Bool.false_eq_true, if_false, if_pos, hb]

theorem section_bracket_rule_witness :
    (trim (takeUntil (fun c => decide (c = ';')) "[b".data)).head? = some '[' ∧
    parse_line "[b".data 1 = .error (.IncorrectSection 2) :=
  ⟨by decide, (section_bracket_rule.1 "[b".data 1 (by decide)).1 (by decide)⟩

/-! ### Lemmas about the backing-map model -/

theorem hmGet_eq_none {K V : Type} [DecidableEq K] {l : List (K × V)} {k : K}
    (h : hmContains l k = false) : hmGet l k = none := by
  induction l with
  | nil => rfl
  | cons p rest ih =>
    rw [hmContains, List.any_cons, Bool.or_eq_false_iff] at h
    rw [hmGet, List.find?_cons_of_neg _ (by simp_all), ← hmGet]
    exact ih h.2

theorem hmContains_of_hmGet_some {K V : Type} [DecidableEq K] {l : List (K × V)}
    {k : K} {v : V} (h : hmGet l k = some v) : hmContains l k = true := by
  by_contra hc
  rw [hmGet_eq_none (Bool.not_eq_true _ ▸ hc)] at h
  exact Option.noConfusion h

theorem hmGet_hmInsert_self {K V : Type} [DecidableEq K] (l : List (K × V))
    (k : K) (v : V) : hmGet (hmInsert l k v) k = some v := by
  rw [hmInsert]
  by_cases hc : hmContains l k = true
  · rw [if_pos hc]
    induction l with
    | nil => simp [hmContains] at hc
    | cons p rest ih =>
      by_cases hp : p.1 = k
      · simp [hmGet, hp]
      · rw [hmContains, List.any_cons] at hc
        simp only [decide_eq_false hp, Bool.false_or] at hc
        simpa [hmGet, hp] using ih hc
  · rw [if_neg hc]
    have hn : hmGet l k = none := hmGet_eq_none (by simpa using hc)
    rw [hmGet] at hn ⊢
    rw [List.find?_append, Option.map_eq_some']
    refine ⟨(k, v), ?_, rfl⟩
    rw [Option.map_eq_none'] at hn
    rw [hn]
    simp [List.find?]

/-- C2: `OrderedHashMap::insert` appends an absent key to the order sequence and
returns `none`; for a present key it returns the previous value, replaces the
value, and leaves the order sequence unchanged.  In particular inserting `c`,
`b`, `a` and re-inserting `b` still iterates as `c`, `b`, `a`. -/
theorem insert_contract :
    (∀ (K V : Type) [DecidableEq K] (m : OrderedHashMap K V) (k : K) (v : V),
      (hmContains m.base k = false →
        (m.insert k v).1.keys = m.keys ++ [k] ∧ (m.insert k v).2 = none) ∧
      (∀ v0, hmGet m.base k = some v0 →
        (m.insert k v).2 = some v0 ∧ (m.insert k v).1.get k = some v ∧
        (m.insert k v).1.keys = m.keys)) ∧
    (((((OrderedHashMap.new.insert "c".data 1).1.insert "b".data 2).1.insert
          "a".data 3).1.insert "b".data 9).1.iter =
      [("c".data, 1), ("b".data, 9), ("a".data, 3)]) := by
  refine ⟨fun K V _ m k v => ⟨fun habs => ?_, fun v0 hv0 => ?_⟩, by decide⟩
  · rw [OrderedHashMap.insert]
    exact ⟨by simp [habs], hmGet_eq_none habs⟩
  · have hc : hmContains m.base k = true := hmContains_of_hmGet_some hv0
    rw [OrderedHashMap.insert]
    exact ⟨hv0, by simp [OrderedHashMap.get, hmGet_hmInsert_self], by simp [hc]⟩

theorem insert_contract_witness :
    hmContains (((OrderedHashMap.new.insert "c".data 1).1.insert "b".data
        2).1 : OrderedHashMap Str Nat).base "x".data = false ∧
    ((((OrderedHashMap.new.insert "c".data 1).1.insert "b".data 2).1.insert
          "x".data 7).1.keys =
        (((OrderedHashMap.new.insert "c".data 1).1.insert "b".data 2).1 :
          OrderedHashMap Str Nat).keys ++ ["x".data] ∧
      (((OrderedHashMap.new.insert "c".data 1).1.insert "b".data 2).1.insert
          "x".data 7).2 = none) :=
  ⟨by decide,
    (insert_contract.1 Str Nat
        (((OrderedHashMap.new.insert "c".data 1).1.insert "b".data 2).1)
        "x".data 7).1 (by decide)⟩

theorem hmContains_map_replace {K V : Type} [DecidableEq K] (l : List (K × V))
    (k x : K) (v : V) :
    hmContains (l.map fun p => if p.1 = k then (k, v) else p) x = hmContains l x := by
  induction l with
  | nil => rfl
  | cons p rest ih =>
    rw [List.map_cons, hmContains, List.any_cons, hmContains, List.any_cons]
    have hhead : (decide ((if p.1 = k then (k, v) else p).1 = x)) = decide (p.1 = x) := by
      by_cases hp : p.1 = k
      · rw [if_pos hp, hp]
      · rw [if_neg hp]
    rw [hhead, ← hmContains, ← hmContains, ih]

theorem hmContains_hmInsert {K V : Type} [DecidableEq K] (l : List (K × V))
    (k x : K) (v : V) :
    hmContains (hmInsert l k v) x = (hmContains l x || decide (x = k)) := by
  rw [hmInsert]
  by_cases hc : hmContains l k = true
  · rw [if_pos hc, hmContains_map_replace]
    by_cases hx : x = k
    · subst hx; simp [hc]
    · simp [hx]
  · rw [if_neg hc, hmContains, List.any_append, ← hmContains]
    have : (List.any [(k, v)] fun p => decide (p.1 = x)) = decide (x = k) := by
      simp [eq_comm]
    rw [this]

theorem hmContains_hmRemove {K V : Type} [DecidableEq K] (l : List (K × V))
    (k x : K) :
    hmContains (hmRemove l k) x = (hmContains l x && !decide (x = k)) := by
  induction l with
  | nil => simp [hmRemove, hmContains]
  | cons p rest ih =>
    by_cases hp : p.1 = k <;> by_cases hx : x = k
    · subst hx
      simp_all [hmRemove, hmContains, List.filter_cons, List.any_cons]
    · have hkx : ¬k = x := fun e => hx e.symm
      simp_all [hmRemove, hmContains, List.filter_cons, List.any_cons, hkx]
    · subst hx
      simp_all [hmRemove, hmContains, List.filter_cons, List.any_cons]
    · simp_all [hmRemove, hmContains, List.filter_cons, List.any_cons]

theorem swapRemove_spec {α : Type} [DecidableEq α] :
    ∀ (l : List α) (k : α) (i : Nat), l.Nodup →
      l.findIdx? (fun x => decide (x = k)) = some i →
      (swapRemove l i).Nodup ∧ ∀ x, x ∈ swapRemove l i ↔ (x ∈ l ∧ x ≠ k)
  | [], k, i, _, h => by simp at h
  | a :: t, k, i, hnd, h => by
    rw [List.findIdx?_cons] at h
    by_cases ha : a = k
    · rw [if_pos (by simp [ha])] at h
      obtain rfl : (0 : Nat) = i := Option.some.inj h
      subst ha
      rcases List.eq_nil_or_concat t with rfl | ⟨t', z, rfl⟩
      · refine ⟨by simp [swapRemove], fun x => by simp [swapRemove]⟩
      · rw [List.concat_eq_append] at hnd ⊢
        have hsw : swapRemove (a :: (t' ++ [z])) 0 = z :: t' := by
          rw [swapRemove, show a :: (t' ++ [z]) = (a :: t') ++ [z] by simp,
            List.getLast?_concat]
          show (((z :: t') ++ [z]).dropLast) = z :: t'
          exact List.dropLast_concat
        rw [hsw]
        rw [List.nodup_cons] at hnd
        have hperm : (t' ++ [z]).Perm (z :: t') := List.perm_append_singleton z t'
        refine ⟨hperm.nodup hnd.2, fun x => ?_⟩
        rw [← hperm.mem_iff]
        constructor
        · exact fun hx => ⟨List.mem_cons_of_mem _ hx, fun e => hnd.1 (e ▸ hx)⟩
        · rintro ⟨hx, hne⟩
          rcases List.mem_cons.mp hx with rfl | hx
          · exact absurd rfl hne
          · exact hx
    · rw [if_neg (by simp [ha]), List.findIdx?_succ] at h
      rcases Option.map_eq_some'.mp h with ⟨i', hfind, rfl⟩
      have ht : t ≠ [] := by rintro rfl; simp at hfind
      rw [List.nodup_cons] at hnd
      obtain ⟨IH1, IH2⟩ := swapRemove_spec t k i' hnd.2 hfind
      have hsw : swapRemove (a :: t) (i' + 1) = a :: swapRemove t i' := by
        rw [swapRemove, swapRemove]
        cases hz : t.getLast? with
        | none => exact absurd (List.getLast?_eq_none_iff.mp hz) ht
        | some z =>
          have hlast : (a :: t).getLast? = some z := by
            cases t with
            | nil => exact absurd rfl ht
            | cons b t2 => rw [List.getLast?_cons_cons]; exact hz
          rw [hlast]
          show ((a :: t.set i' z).dropLast) = a :: (t.set i' z).dropLast
          cases hts : t.set i' z with
          | nil =>
            have hlen : (t.set i' z).length = t.length := by simp
            rw [hts] at hlen
            cases t with
            | nil => exact absurd rfl ht
            | cons b t2 => simp at hlen
          | cons c cs => rw [List.dropLast_cons₂]
      rw [hsw]
      have hanot : a ∉ swapRemove t i' := fun hmem => hnd.1 ((IH2 a).mp hmem).1
      refine ⟨List.nodup_cons.mpr ⟨hanot, IH1⟩, fun x => ?_⟩
      rw [List.mem_cons, IH2 x, List.mem_cons]
      constructor
      · rintro (rfl | ⟨hx, hne⟩)
        · exact ⟨Or.inl rfl, ha⟩
        · exact ⟨Or.inr hx, hne⟩
      · rintro ⟨rfl | hx, hne⟩
        · exact Or.inl rfl
        · exact Or.inr ⟨hx, hne⟩

theorem swapRemove_mem {α : Type} [DecidableEq α] :
    ∀ (l : List α) (k : α) (i : Nat),
      l.findIdx? (fun x => decide (x = k)) = some i →
      ∀ x ∈ l, x ≠ k → x ∈ swapRemove l i
  | [], _, _, h => by simp at h
  | a :: t, k, i, h => by
    rw [List.findIdx?_cons] at h
    by_cases ha : a = k
    · rw [if_pos (by simp [ha])] at h
      obtain rfl : (0 : Nat) = i := Option.some.inj h
      subst ha
      rcases List.eq_nil_or_concat t with rfl | ⟨t', z, rfl⟩
      · intro x hx hne
        rcases List.mem_singleton.mp hx with rfl
        exact absurd rfl hne
      · rw [List.concat_eq_append]
        have hsw : swapRemove (a :: (t' ++ [z])) 0 = z :: t' := by
          rw [swapRemove, show a :: (t' ++ [z]) = (a :: t') ++ [z] by simp,
            List.getLast?_concat]
          show (((z :: t') ++ [z]).dropLast) = z :: t'
          exact List.dropLast_concat
        rw [hsw]
        intro x hx hne
        rcases List.mem_cons.mp hx with rfl | hx
        · exact absurd rfl hne
        · rcases List.mem_append.mp hx with hx | hx
          · exact List.mem_cons_of_mem _ hx
          · rcases List.mem_singleton.mp hx with rfl
            exact List.mem_cons_self _ _
    · rw [if_neg (by simp [ha]), List.findIdx?_succ] at h
      rcases Option.map_eq_some'.mp h with ⟨i', hfind, rfl⟩
      have ht : t ≠ [] := by rintro rfl; simp at hfind
      have hsw : swapRemove (a :: t) (i' + 1) = a :: swapRemove t i' := by
        rw [swapRemove, swapRemove]
        cases hz : t.getLast? with
        | none => exact absurd (List.getLast?_eq_none_iff.mp hz) ht
        | some z =>
          have hlast : (a :: t).getLast? = some z := by
            cases t with
            | nil => exact absurd rfl ht
            | cons b t2 => rw [List.getLast?_cons_cons]; exact hz
          rw [hlast]
          show ((a :: t.set i' z).dropLast) = a :: (t.set i' z).dropLast
          cases hts : t.set i' z with
          | nil =>
            have hlen : (t.set i' z).length = t.length := by simp
            rw [hts] at hlen
            cases t with
            | nil => exact absurd rfl ht
            | cons b t2 => simp at hlen
          | cons c cs => rw [List.dropLast_cons₂]
      rw [hsw]
      intro x hx hne
      rcases List.mem_cons.mp hx with rfl | hx
      · exact List.mem_cons_self _ _
      · exact List.mem_cons_of_mem _ (swapRemove_mem t k i' hfind x hx hne)

/-- C3 (amended): for every `OrderedHashMap` reachable by any sequence of the
public operations — `new`, `insert`, `remove`, and `entry` whether the returned
`Entry` is completed with an insertion or dropped — the key sequence contains
every key currently present in the lookup structure.  When every `entry` call
is completed with an insertion (the only way the library itself uses it), the
key sequence moreover contains each present key exactly once and no absent
key; a dropped vacant `Entry` breaks both, and `remove` breaks first-insertion
order by swapping the last key into the removed slot. -/
theorem reachable_keys_invariant :
    (∀ (K V : Type) [DecidableEq K] (m : OrderedHashMap K V), Reachable m →
      ∀ k, hmContains m.base k = true → k ∈ m.keys) ∧
    (∀ (K V : Type) [DecidableEq K] (m : OrderedHashMap K V),
      ReachableCompleted m →
      m.keys.Nodup ∧ ∀ x, x ∈ m.keys ↔ hmContains m.base x = true) := by
  constructor
  · intro K V _ m h
    induction h with
    | new => intro k hk; simp [OrderedHashMap.new, hmContains] at hk
    | insert m k0 v _ ih =>
      intro x hx
      rw [show (m.insert k0 v).1.base = hmInsert m.base k0 v from rfl,
        hmContains_hmInsert] at hx
      rw [show (m.insert k0 v).1.keys
          = (if hmContains m.base k0 = true then m.keys else m.keys ++ [k0])
          from rfl]
      rw [Bool.or_eq_true] at hx
      rcases hx with hx | hx
      · by_cases hc : hmContains m.base k0 = true
        · rw [if_pos hc]; exact ih x hx
        · rw [if_neg hc]; exact List.mem_append_left _ (ih x hx)
      · obtain rfl : x = k0 := of_decide_eq_true hx
        by_cases hc : hmContains m.base x = true
        · rw [if_pos hc]; exact ih x hc
        · rw [if_neg hc]; exact List.mem_append_right _ (List.mem_singleton_self _)
    | remove m k0 _ ih =>
      intro x hx
      cases hidx : m.keys.findIdx? (fun y => decide (y = k0)) with
      | none =>
        rw [show (m.remove k0).1 = m by rw [OrderedHashMap.remove, hidx]] at hx ⊢
        exact ih x hx
      | some i =>
        rw [show (m.remove k0).1.base = hmRemove m.base k0 by
            rw [OrderedHashMap.remove, hidx],
          hmContains_hmRemove, Bool.and_eq_true] at hx
        rw [show (m.remove k0).1.keys = swapRemove m.keys i by
          rw [OrderedHashMap.remove, hidx]]
        have hxne : x ≠ k0 := by
          have h2 := hx.2
          rw [Bool.not_eq_true'] at h2
          exact of_decide_eq_false h2
        exact swapRemove_mem m.keys k0 i hidx x (ih x hx.1) hxne
    | entry m k0 d f _ ih =>
      intro x hx
      rw [show (m.entryModify k0 d f).base
          = hmInsert m.base k0 (f ((hmGet m.base k0).getD d)) from rfl,
        hmContains_hmInsert] at hx
      rw [show (m.entryModify k0 d f).keys
          = (if hmContains m.base k0 = true then m.keys else m.keys ++ [k0])
          from rfl]
      rw [Bool.or_eq_true] at hx
      rcases hx with hx | hx
      · by_cases hc : hmContains m.base k0 = true
        · rw [if_pos hc]; exact ih x hx
        · rw [if_neg hc]; exact List.mem_append_left _ (ih x hx)
      · obtain rfl : x = k0 := of_decide_eq_true hx
        by_cases hc : hmContains m.base x = true
        · rw [if_pos hc]; exact ih x hc
        · rw [if_neg hc]; exact List.mem_append_right _ (List.mem_singleton_self _)
    | entryDrop m k0 _ ih =>
      intro x hx
      rw [show (m.entryDrop k0).base = m.base from rfl] at hx
      rw [show (m.entryDrop k0).keys
          = (if hmContains m.base k0 = true then m.keys else m.keys ++ [k0])
          from rfl]
      by_cases hc : hmContains m.base k0 = true
      · rw [if_pos hc]; exact ih x hx
      · rw [if_neg hc]; exact List.mem_append_left _ (ih x hx)
  · intro K V _ m h
    induction h with
    | new => exact ⟨List.nodup_nil, fun x => by simp [OrderedHashMap.new, hmContains]⟩
    | insert m k v _ ih =>
      rw [OrderedHashMap.insert]
      by_cases hc : hmContains m.base k = true
      · refine ⟨by simp [hc, ih.1], fun x => ?_⟩
        rw [if_pos hc]
        show x ∈ m.keys ↔ _
        rw [hmContains_hmInsert]
        by_cases hx : x = k
        · subst hx; simp [hc, (ih.2 x).mpr hc]
        · simp [hx, ih.2 x]
      · have hk : k ∉ m.keys := fun hm => hc ((ih.2 k).mp hm)
        refine ⟨?_, fun x => ?_⟩
        · simp only [if_neg hc]
          exact List.Nodup.append ih.1 (List.nodup_singleton k)
            (by simpa [List.disjoint_singleton] using hk)
        · rw [if_neg hc, hmContains_hmInsert, List.mem_append]
          by_cases hx : x = k
          · subst hx; simp
          · simp [hx, ih.2 x]
    | remove m k _ ih =>
      rw [OrderedHashMap.remove]
      cases hidx : m.keys.findIdx? (fun x => decide (x = k)) with
      | none => exact ih
      | some i =>
        obtain ⟨H1, H2⟩ := swapRemove_spec m.keys k i ih.1 hidx
        refine ⟨H1, fun x => ?_⟩
        show x ∈ swapRemove m.keys i ↔ _
        rw [H2 x, hmContains_hmRemove]
        by_cases hx : x = k
        · subst hx; simp
        · simp [hx, ih.2 x]
    | entry m k d f _ ih =>
      rw [OrderedHashMap.entryModify]
      by_cases hc : hmContains m.base k = true
      · refine ⟨by simp [hc, ih.1], fun x => ?_⟩
        rw [if_pos hc]
        show x ∈ m.keys ↔ _
        rw [hmContains_hmInsert]
        by_cases hx : x = k
        · subst hx; simp [hc, (ih.2 x).mpr hc]
        · simp [hx, ih.2 x]
      · have hk : k ∉ m.keys := fun hm => hc ((ih.2 k).mp hm)
        refine ⟨?_, fun x => ?_⟩
        · simp only [if_neg hc]
          exact List.Nodup.append ih.1 (List.nodup_singleton k)
            (by simpa [List.disjoint_singleton] using hk)
        · rw [if_neg hc, hmContains_hmInsert, List.mem_append]
          by_cases hx : x = k
          · subst hx; simp
          · simp [hx, ih.2 x]

theorem reachable_keys_invariant_witness :
    (Reachable (((OrderedHashMap.new : OrderedHashMap Nat Nat).entryDrop
        5).insert 5 50).1 ∧
      hmContains ((((OrderedHashMap.new : OrderedHashMap Nat Nat).entryDrop
        5).insert 5 50).1).base 5 = true ∧
      5 ∈ ((((OrderedHashMap.new : OrderedHashMap Nat Nat).entryDrop
        5).insert 5 50).1).keys) ∧
    (ReachableCompleted ((((OrderedHashMap.new : OrderedHashMap Nat Nat).insert
        1 10).1.insert 2 20).1.remove 1).1 ∧
      ((((OrderedHashMap.new : OrderedHashMap Nat Nat).insert 1 10).1.insert 2
        20).1.remove 1).1.keys.Nodup) :=
  have hr1 : Reachable (((OrderedHashMap.new : OrderedHashMap Nat Nat).entryDrop
      5).insert 5 50).1 :=
    Reachable.insert _ 5 50 (Reachable.entryDrop _ 5 Reachable.new)
  have hr2 : ReachableCompleted ((((OrderedHashMap.new :
      OrderedHashMap Nat Nat).insert 1 10).1.insert 2 20).1.remove 1).1 :=
    ReachableCompleted.remove _ 1 (ReachableCompleted.insert _ 2 20
      (ReachableCompleted.insert _ 1 10 ReachableCompleted.new))
  ⟨⟨hr1, by decide, reachable_keys_invariant.1 Nat Nat _ hr1 5 (by decide)⟩,
    ⟨hr2, (reachable_keys_invariant.2 Nat Nat _ hr2).1⟩⟩

/-- C3 is false as stated, in each clause beyond containment.  Order: after
inserting keys 1, 2, 3 and removing 1, the key sequence is `[3, 2]`, not the
first-insertion order `[2, 3]` of the remaining keys (`remove` swaps the last
key into the removed slot).  No-absent-key: `entry(5)` with the `Entry` dropped
leaves 5 in the key sequence while the lookup structure does not contain it.
Exactly-once: following that with `insert(5, 50)` pushes 5 again, so a key
present in the lookup structure is listed twice.  All three states are reached
by public operations alone. -/
theorem keys_invariant_counterexample :
    ((((((OrderedHashMap.new : OrderedHashMap Nat Nat).insert 1 10).1.insert 2
          20).1.insert 3 30).1.remove 1).1.keys = [3, 2] ∧
      ([3, 2] : List Nat) ≠ [2, 3]) ∧
    (((OrderedHashMap.new : OrderedHashMap Nat Nat).entryDrop 5).keys = [5] ∧
      hmContains ((OrderedHashMap.new : OrderedHashMap Nat Nat).entryDrop
        5).base 5 = false) ∧
    (((OrderedHashMap.new : OrderedHashMap Nat Nat).entryDrop 5).insert 5
        50).1.keys = [5, 5] :=
  ⟨⟨by decide, by decide⟩, ⟨by decide, by decide⟩, by decide⟩

/-! ### Serializer structure -/

theorem intercalate_two (sep x y : Str) (l : List Str) :
    List.intercalate sep (x :: y :: l) = x ++ sep ++ List.intercalate sep (y :: l) := by
  simp [List.intercalate, List.append_assoc]

theorem foldl_itemLines (items : List (Str × Str)) (acc : Str) :
    items.foldl (fun b kv => b ++ kv.1 ++ [' ', '=', ' '] ++ kv.2 ++ ['\n']) acc
      = acc ++ (items.map fun kv => specLine kv ++ ['\n']).flatten := by
  induction items generalizing acc with
  | nil => simp
  | cons kv rest ih =>
    rw [List.foldl_cons, ih]
    simp [specLine, List.append_assoc]

theorem headerLines_eq (h : Str) (lines : List Str) :
    (h ++ ['\n']) ++ (lines.map fun l => l ++ ['\n']).flatten
      = List.intercalate ['\n'] (h :: lines) ++ ['\n'] := by
  induction lines generalizing h with
  | nil => simp [List.intercalate]
  | cons l ls ih =>
    rw [List.map_cons, List.flatten_cons, ih l, intercalate_two]
    simp [List.append_assoc]

theorem specBlock_flatten (ns : Str × Section) :
    ((['['] ++ ns.1 ++ [']', '\n']) ++
        (ns.2.iter.map fun kv => specLine kv ++ ['\n']).flatten) ++ ['\n']
      = specBlock ns ++ ['\n', '\n'] := by
  have h := headerLines_eq ('[' :: ns.1 ++ [']']) (ns.2.iter.map specLine)
  rw [List.map_map] at h
  rw [specBlock]
  rw [show (['['] ++ ns.1 ++ [']', '\n']) = ('[' :: ns.1 ++ [']']) ++ ['\n'] by simp]
  rw [show (ns.2.iter.map fun kv => specLine kv ++ ['\n'])
      = ns.2.iter.map ((fun l => l ++ ['\n']) ∘ specLine) from rfl]
  rw [h]
  simp [List.append_assoc]

theorem foldl_sectionBlocks (secs : List (Str × Section)) (acc : Str) :
    secs.foldl
        (fun buf ns =>
          (ns.2.iter.foldl (fun b kv => b ++ kv.1 ++ [' ', '=', ' '] ++ kv.2 ++ ['\n'])
            (buf ++ ['['] ++ ns.1 ++ [']', '\n'])) ++ ['\n'])
        acc
      = acc ++ (secs.map fun ns => specBlock ns ++ ['\n', '\n']).flatten := by
  induction secs generalizing acc with
  | nil => simp
  | cons ns rest ih =>
    rw [List.foldl_cons, ih, foldl_itemLines, List.map_cons, List.flatten_cons,
      ← specBlock_flatten ns]
    simp [List.append_assoc]

theorem flatten_map_append_sep (sep : Str) :
    ∀ (bs : List Str), bs ≠ [] →
      (bs.map fun b => b ++ sep).flatten = List.intercalate sep bs ++ sep
  | [], h => absurd rfl h
  | [b], _ => by simp [List.intercalate]
  | b :: c :: rest, _ => by
    rw [List.map_cons, List.flatten_cons,
      flatten_map_append_sep sep (c :: rest) (by simp), intercalate_two]
    simp [List.append_assoc]

theorem toBuffer_eq_specSerialize (ini : Ini) : ini.toBuffer = specSerialize ini := by
  rw [Ini.toBuffer, specSerialize, foldl_sectionBlocks]
  cases hsecs : ini.document.iter with
  | nil => simp [List.intercalate]
  | cons s rest =>
    rw [List.nil_append,
      show ((s :: rest).map fun ns => specBlock ns ++ ['\n', '\n'])
        = (((s :: rest).map specBlock).map fun b => b ++ ['\n', '\n']) by
        rw [List.map_map]; rfl,
      flatten_map_append_sep _ _ (by simp),
      show (List.intercalate ['\n', '\n'] ((s :: rest).map specBlock)) ++ ['\n', '\n']
        = ((List.intercalate ['\n', '\n'] ((s :: rest).map specBlock)) ++ ['\n']) ++ ['\n'] by
        simp,
      List.dropLast_concat, List.dropLast_concat]

/-- C4: serialization iterates sections in insertion order and emits, for each
materialized section, `[name]` then one `key = value` line per pair in key
insertion order, with exactly one blank line between consecutive sections and
no trailing blank line; a name only selected via `section` is not materialized
and leaves both the document and the output unchanged. -/
theorem serialization_format (ini : Ini) :
    ini.toBuffer = specSerialize ini ∧
    ∀ name, (ini.section_ name).document = ini.document ∧
      (ini.section_ name).toBuffer = ini.toBuffer :=
  ⟨toBuffer_eq_specSerialize ini, fun _ => ⟨rfl, rfl⟩⟩

/-! ### Fail-fast assembly -/

theorem exceptBind_ok {ε α β : Type} (a : α) (f : α → Except ε β) :
    (Except.ok a >>= f) = f a := rfl

theorem exceptBind_error {ε α β : Type} (e : ε) (f : α → Except ε β) :
    ((Except.error e : Except ε α) >>= f) = .error e := rfl

theorem from_string_fold_spec :
    ∀ (ps : List (Nat × Str)) (ini : Ini),
      (∀ e, firstError ps = some e → ps.foldlM Ini.fromStringStep ini = .error e) ∧
      (firstError ps = none → ∃ r, ps.foldlM Ini.fromStringStep ini = .ok r)
  | [], ini => ⟨fun e h => by simp [firstError] at h, fun _ => ⟨ini, rfl⟩⟩
  | p :: rest, ini => by
    cases hp : parse_line p.2 p.1 with
    | error e0 =>
      refine ⟨fun e h => ?_, fun h => ?_⟩
      · have hfe : firstError (p :: rest) = some e0 := by
          simp [firstError, List.findSome?_cons, hp]
        rw [hfe] at h
        obtain rfl := Option.some.inj h
        show (p :: rest).foldlM Ini.fromStringStep ini = .error e0
        rw [List.foldlM_cons, show Ini.fromStringStep ini p = .error e0 by
          simp [Ini.fromStringStep, hp], exceptBind_error]
      · exfalso
        simp [firstError, List.findSome?_cons, hp] at h
    | ok parsed =>
      have hstep : Ini.fromStringStep ini p = .ok (ini.applyParsed parsed) := by
        cases parsed <;> simp [Ini.fromStringStep, hp, Ini.applyParsed]
      have hfe : firstError (p :: rest) = firstError rest := by
        simp [firstError, List.findSome?_cons, hp]
      obtain ⟨IH1, IH2⟩ := from_string_fold_spec rest (ini.applyParsed parsed)
      refine ⟨fun e h => ?_, fun h => ?_⟩
      · rw [hfe] at h
        rw [List.foldlM_cons, hstep, exceptBind_ok]
        exact IH1 e h
      · rw [hfe] at h
        obtain ⟨r, hr⟩ := IH2 h
        exact ⟨r, by rw [List.foldlM_cons, hstep, exceptBind_ok]; exact hr⟩

/-- C5: parsing is fail-fast: when some line fails to classify, `from_string`
returns exactly the error of the first such line and no document; when every
line classifies, it returns a document. -/
theorem from_string_fail_fast (s : Str) :
    (∀ e, firstError (rustLines s).enum = some e → Ini.from_string s = .error e) ∧
    (firstError (rustLines s).enum = none → ∃ ini, Ini.from_string s = .ok ini) :=
  from_string_fold_spec (rustLines s).enum Ini.new

theorem from_string_fail_fast_witness :
    firstError (rustLines "x\n=2".data).enum = some (.IncorrectSyntax 1) ∧
    Ini.from_string "x\n=2".data = .error (.IncorrectSyntax 1) :=
  ⟨by decide, (from_string_fail_fast "x\n=2".data).1 _ (by decide)⟩

/-! ### C1: serialized text splits back into the emitted lines -/

/-- C1 is false as stated: the structured document with section `a` and item
`k = ";"` serializes to `"[a]\nk = ;"`, whose parse succeeds but stores the
value `""` for `k`, not `";"` (the serialized value is read as a comment). -/
theorem roundtrip_counterexample :
    (Ini.from_string ((Ini.new.section_ "a".data).item "k".data ";".data).toBuffer).map
        (fun i => i.get_raw "a".data "k".data) = .ok (some []) ∧
    ((Ini.new.section_ "a".data).item "k".data ";".data).get_raw "a".data "k".data
      = some ";".data ∧
    some ([] : Str) ≠ some ";".data :=
  ⟨by decide, by decide, by decide⟩

theorem trimLeft_length (l : Str) : (trimLeft l).length ≤ l.length := by
  induction l with
  | nil => exact Nat.le_refl _
  | cons c t ih =>
    by_cases h : c.isWhitespace
    · rw [trimLeft, if_pos h]
      exact Nat.le_succ_of_le ih
    · rw [trimLeft, if_neg h]

theorem trimLeft_cons_of_not_ws {c : Char} (t : Str) (h : c.isWhitespace = false) :
    trimLeft (c :: t) = c :: t := by
  rw [trimLeft, if_neg (by simp [h])]

theorem head_not_ws_of_trimLeft_eq {l : Str} (h : trimLeft l = l) :
    ∀ c, l.head? = some c → c.isWhitespace = false := by
  intro c hc
  cases l with
  | nil => simp at hc
  | cons a t =>
    obtain rfl : a = c := by simpa using hc
    by_contra hws
    rw [Bool.not_eq_false] at hws
    rw [trimLeft, if_pos hws] at h
    have hlen := trimLeft_length t
    rw [h] at hlen
    simp at hlen

theorem getLast_not_ws_of_trimRight_eq {l : Str} (h : trimRight l = l) :
    ∀ c, l.getLast? = some c → c.isWhitespace = false := by
  intro c hc
  have h2 : trimLeft l.reverse = l.reverse := by
    have h3 := congrArg List.reverse h
    rw [trimRight, List.reverse_reverse] at h3
    exact h3
  exact head_not_ws_of_trimLeft_eq h2 c (by rwa [List.head?_reverse])

theorem takeUntil_eq_self {p : Char → Bool} {l : Str} (h : ∀ c ∈ l, p c = false) :
    takeUntil p l = l := by
  induction l with
  | nil => rfl
  | cons c t ih =>
    rw [takeUntil, if_neg (by simp [h c (List.mem_cons_self c t)]),
      ih fun d hd => h d (List.mem_cons_of_mem _ hd)]

theorem trimRight_concat_of_not_ws {l : Str} {c : Char} (h : c.isWhitespace = false) :
    trimRight (l ++ [c]) = l ++ [c] := by
  rw [trimRight, List.reverse_append]
  simp only [List.reverse_cons, List.reverse_nil, List.nil_append, List.singleton_append]
  rw [trimLeft_cons_of_not_ws _ h, List.reverse_cons, List.reverse_reverse]

theorem trim_eq_self_of_ends {l : Str}
    (hh : ∀ c, l.head? = some c → c.isWhitespace = false)
    (hl : ∀ c, l.getLast? = some c → c.isWhitespace = false) :
    trim l = l := by
  cases l with
  | nil => rfl
  | cons a t =>
    rw [trim, trimLeft_cons_of_not_ws _ (hh a rfl)]
    rcases List.eq_nil_or_concat (a :: t) with h0 | ⟨init, d, hcat⟩
    · exact absurd h0 (by simp)
    · rw [List.concat_eq_append] at hcat
      rw [hcat]
      exact trimRight_concat_of_not_ws
        (hl d (by rw [hcat]; exact List.getLast?_concat _))

theorem splitNl_no_newline {l : Str} (h : '\n' ∉ l) : splitNl l = [l] := by
  induction l with
  | nil => rfl
  | cons c t ih =>
    have hc : ¬(c = '\n') := by rintro rfl; exact h (List.mem_cons_self _ _)
    simp only [splitNl, if_neg hc, ih fun hm => h (List.mem_cons_of_mem _ hm)]

theorem splitNl_append_newline {a : Str} (b : Str) (h : '\n' ∉ a) :
    splitNl (a ++ '\n' :: b) = a :: splitNl b := by
  induction a with
  | nil => simp [splitNl]
  | cons c a' ih =>
    have hc : ¬(c = '\n') := by rintro rfl; exact h (List.mem_cons_self _ _)
    have ih' := ih fun hm => h (List.mem_cons_of_mem _ hm)
    simp only [List.cons_append, splitNl, if_neg hc, List.append_eq, ih']

theorem map_eq_self_of_eq {α : Type} {l : List α} {f : α → α} (h : ∀ a ∈ l, f a = a) :
    l.map f = l := by
  induction l with
  | nil => rfl
  | cons a t ih =>
    rw [List.map_cons, h a (List.mem_cons_self _ _),
      ih fun b hb => h b (List.mem_cons_of_mem _ hb)]

theorem splitNl_intercalate :
    ∀ (ls : List Str), ls ≠ [] → (∀ l ∈ ls, '\n' ∉ l) →
      splitNl (List.intercalate ['\n'] ls) = ls
  | [], h, _ => absurd rfl h
  | [l], _, hnl => by
    rw [show List.intercalate ['\n'] [l] = l by simp [List.intercalate]]
    exact splitNl_no_newline (hnl l (List.mem_cons_self _ _))
  | l :: l2 :: rest, _, hnl => by
    rw [intercalate_two,
      show l ++ ['\n'] ++ List.intercalate ['\n'] (l2 :: rest)
        = l ++ '\n' :: List.intercalate ['\n'] (l2 :: rest) by simp,
      splitNl_append_newline _ (hnl l (List.mem_cons_self _ _)),
      splitNl_intercalate (l2 :: rest) (by simp)
        fun x hx => hnl x (List.mem_cons_of_mem _ hx)]

theorem rustLines_intercalate {ls : List Str} (hne : ls ≠ [])
    (hnl : ∀ l ∈ ls, '\n' ∉ l)
    (hlast : ls.getLast? ≠ some [])
    (hcr : ∀ l ∈ ls, l.getLast? ≠ some '\r') :
    rustLines (List.intercalate ['\n'] ls) = ls := by
  rw [rustLines, splitNl_intercalate ls hne hnl]
  rw [if_neg hlast]
  exact map_eq_self_of_eq fun l hl => if_neg (hcr l hl)

/-! ### C1: each emitted line classifies back to what produced it -/

theorem safeNameB_spec {n : Str} (h : safeNameB n = true) :
    ';' ∉ n ∧ '\n' ∉ n ∧ (∀ c, n.head? = some c → isBracket c = false) ∧
      (∀ c, n.getLast? = some c → isBracket c = false) := by
  rw [safeNameB] at h
  simp only [Bool.and_eq_true, decide_eq_true_eq] at h
  refine ⟨h.1.1.1, h.1.1.2, fun c hc => ?_, fun c hc => ?_⟩
  · have h2 := h.1.2
    rw [hc] at h2
    simpa using h2
  · have h2 := h.2
    rw [hc] at h2
    simpa using h2

theorem safeKeyB_spec {k : Str} (h : safeKeyB k = true) :
    k ≠ [] ∧ ';' ∉ k ∧ '\n' ∉ k ∧ '\r' ∉ k ∧ '=' ∉ k ∧ trimLeft k = k ∧
      trimRight k = k ∧ ∀ c, k.head? = some c → ¬(c = '[') := by
  rw [safeKeyB] at h
  simp only [Bool.and_eq_true, decide_eq_true_eq] at h
  refine ⟨h.1.1.1.1.1.1.1, h.1.1.1.1.1.1.2, h.1.1.1.1.1.2, h.1.1.1.1.2,
    h.1.1.1.2, h.1.1.2, h.1.2, fun c hc => ?_⟩
  have h2 := h.2
  rw [hc] at h2
  simpa using h2

theorem safeValueB_spec {v : Str} (h : safeValueB v = true) :
    ';' ∉ v ∧ '\n' ∉ v ∧ '\r' ∉ v ∧ trimLeft v = v ∧ trimRight v = v := by
  rw [safeValueB] at h
  simp only [Bool.and_eq_true, decide_eq_true_eq] at h
  exact ⟨h.1.1.1.1, h.1.1.1.2, h.1.1.2, h.1.2, h.2⟩

theorem parse_line_blank (i : Nat) : parse_line [] i = .ok .Empty := rfl

theorem trimMatches_header {n : Str}
    (hhead : ∀ c, n.head? = some c → isBracket c = false)
    (hlast : ∀ c, n.getLast? = some c → isBracket c = false) :
    trimMatches isBracket ('[' :: n ++ [']']) = n := by
  rw [trimMatches, List.cons_append, List.dropWhile_cons, if_pos (by decide)]
  cases n with
  | nil => simp [isBracket]
  | cons c n' =>
    have hc : isBracket c = false := hhead c rfl
    rw [List.cons_append, List.dropWhile_cons, if_neg (by simp [hc])]
    rcases List.eq_nil_or_concat (c :: n') with h0 | ⟨init, d, hcat⟩
    · exact absurd h0 (by simp)
    · rw [List.concat_eq_append] at hcat
      have hd : isBracket d = false := hlast d (by rw [hcat]; exact List.getLast?_concat _)
      rw [show c :: (n' ++ [']']) = (c :: n') ++ [']'] from rfl, hcat,
        List.reverse_append, List.reverse_append]
      simp only [List.reverse_cons, List.reverse_nil, List.nil_append,
        List.singleton_append]
      rw [List.dropWhile_cons, if_pos (by decide), List.dropWhile_cons,
        if_neg (by simp [hd])]
      simp

theorem parse_line_header {n : Str} (h : safeNameB n = true) (i : Nat) :
    parse_line ('[' :: n ++ [']']) i = .ok (.Section n) := by
  obtain ⟨hsemi, _, hhead, hlast⟩ := safeNameB_spec h
  have hline : takeUntil (fun c => decide (c = ';')) ('[' :: n ++ [']'])
      = '[' :: n ++ [']'] := by
    apply takeUntil_eq_self
    intro c hc
    apply decide_eq_false
    rcases List.mem_cons.mp hc with rfl | hc
    · decide
    · rcases List.mem_append.mp hc with hcn | hc1
      · exact fun e => hsemi (e ▸ hcn)
      · rcases List.mem_singleton.mp hc1 with rfl
        decide
  have hglast : ('[' :: n ++ [']']).getLast? = some ']' := by
    rw [show '[' :: n ++ [']'] = ('[' :: n) ++ [']'] from rfl]
    exact List.getLast?_concat _
  have htrim : trim ('[' :: n ++ [']']) = '[' :: n ++ [']'] := by
    apply trim_eq_self_of_ends
    · intro c hc
      obtain rfl := Option.some.inj hc
      decide
    · intro c hc
      rw [hglast] at hc
      obtain rfl := Option.some.inj hc
      decide
  simp only [parse_line, hline, htrim]
  rw [if_neg (by simp), if_pos (show ('[' :: n ++ [']']).head? = some '[' from rfl),
    if_pos hglast, trimMatches_header hhead hlast]

theorem takeUntil_item {k : Str} (rest : Str) (hk : '=' ∉ k) :
    takeUntil (fun c => decide (c = '=')) (k ++ ' ' :: '=' :: rest) = k ++ [' '] := by
  induction k with
  | nil => simp [takeUntil]
  | cons c k' ih =>
    have hc : ¬(c = '=') := fun e => hk (by rw [← e]; exact List.mem_cons_self _ _)
    rw [List.cons_append, takeUntil, if_neg (by simp [hc]),
      ih fun hm => hk (List.mem_cons_of_mem _ hm), List.cons_append]

theorem afterFirst_item {k : Str} (rest : Str) (hk : '=' ∉ k) :
    afterFirst (fun c => decide (c = '=')) (k ++ ' ' :: '=' :: rest) = rest := by
  induction k with
  | nil => simp [afterFirst]
  | cons c k' ih =>
    have hc : ¬(c = '=') := fun e => hk (by rw [← e]; exact List.mem_cons_self _ _)
    rw [List.cons_append, afterFirst, if_neg (by simp [hc]),
      ih fun hm => hk (List.mem_cons_of_mem _ hm)]

theorem trim_key {k : Str} (h1 : trimLeft k = k) (h2 : trimRight k = k) (hk : k ≠ []) :
    trim (k ++ [' ']) = k := by
  cases k with
  | nil => exact absurd rfl hk
  | cons c kt =>
    have hc : c.isWhitespace = false := head_not_ws_of_trimLeft_eq h1 c rfl
    rw [trim, List.cons_append, trimLeft_cons_of_not_ws _ hc, ← List.cons_append,
      trimRight, List.reverse_append]
    simp only [List.reverse_cons, List.reverse_nil, List.nil_append,
      List.singleton_append]
    rw [trimLeft, if_pos (by decide)]
    have h2' : trimLeft (c :: kt).reverse = (c :: kt).reverse := by
      have h3 := congrArg List.reverse h2
      rw [trimRight, List.reverse_reverse] at h3
      exact h3
    have h2'' : trimLeft (kt.reverse ++ [c]) = kt.reverse ++ [c] := by
      simpa using h2'
    rw [h2'']
    simp

theorem trim_value {v : Str} (h1 : trimLeft v = v) (h2 : trimRight v = v) :
    trim (' ' :: v) = v := by
  rw [trim, show trimLeft (' ' :: v) = trimLeft v by rw [trimLeft, if_pos (by decide)],
    h1, h2]

theorem trimRight_append_eq_sp {l : Str} {d : Char} (hd : d.isWhitespace = false) :
    trimRight ((l ++ [d]) ++ [' ']) = l ++ [d] := by
  rw [trimRight, List.reverse_append]
  simp only [List.reverse_cons, List.reverse_nil, List.nil_append, List.singleton_append]
  rw [trimLeft, if_pos (by decide), List.reverse_append]
  simp only [List.reverse_cons, List.reverse_nil, List.nil_append, List.singleton_append]
  rw [trimLeft_cons_of_not_ws _ hd]
  simp

theorem no_semi_item {k v : Str} (hk : ';' ∉ k) (hv : ';' ∉ v) :
    ∀ c ∈ k ++ ' ' :: '=' :: ' ' :: v, decide (c = ';') = false := by
  intro c hc
  apply decide_eq_false
  simp only [List.mem_append, List.mem_cons] at hc
  rcases hc with h | rfl | rfl | rfl | h
  · exact fun e => hk (e ▸ h)
  · decide
  · decide
  · decide
  · exact fun e => hv (e ▸ h)

theorem parse_line_item {k v : Str} (hk : safeKeyB k = true) (hv : safeValueB v = true)
    (i : Nat) : parse_line (specLine (k, v)) i = .ok (.Value k v) := by
  obtain ⟨hne, hsemi, _, _, heq, htl, htr, hhead⟩ := safeKeyB_spec hk
  obtain ⟨vsemi, _, _, vtl, vtr⟩ := safeValueB_spec hv
  obtain ⟨kc, kt, rfl⟩ : ∃ c t, k = c :: t := by
    cases k with
    | nil => exact absurd rfl hne
    | cons c t => exact ⟨c, t, rfl⟩
  have hshape : specLine (kc :: kt, v) = (kc :: kt) ++ ' ' :: '=' :: ' ' :: v := by
    simp [specLine]
  have hkc : kc.isWhitespace = false := head_not_ws_of_trimLeft_eq htl kc rfl
  have hkcb : ¬(kc = '[') := hhead kc rfl
  have htake : takeUntil (fun c => decide (c = ';')) ((kc :: kt) ++ ' ' :: '=' :: ' ' :: v)
      = (kc :: kt) ++ ' ' :: '=' :: ' ' :: v :=
    takeUntil_eq_self (no_semi_item hsemi vsemi)
  have hkey : trim (takeUntil (fun c => decide (c = '='))
      ((kc :: kt) ++ ' ' :: '=' :: ' ' :: v)) = kc :: kt := by
    rw [takeUntil_item _ heq, trim_key htl htr (by simp)]
  have hval : trim (afterFirst (fun c => decide (c = '='))
      ((kc :: kt) ++ ' ' :: '=' :: ' ' :: v)) = v := by
    rw [afterFirst_item _ heq, trim_value vtl vtr]
  have hhas : ((kc :: kt) ++ ' ' :: '=' :: ' ' :: v).any (fun c => decide (c = '='))
      = true := by
    rw [List.any_eq_true]
    exact ⟨'=', by simp, by simp⟩
  cases v with
  | nil =>
    have htrim : trim ((kc :: kt) ++ [' ', '=', ' ']) = (kc :: kt) ++ [' ', '='] := by
      rw [trim, List.cons_append, trimLeft_cons_of_not_ws _ hkc, ← List.cons_append,
        show (kc :: kt) ++ [' ', '=', ' '] = (((kc :: kt) ++ [' ']) ++ ['=']) ++ [' ']
          by simp,
        trimRight_append_eq_sp (by decide)]
      simp
    rw [hshape]
    simp only [parse_line, htake, htrim]
    have hkey2 : trim (takeUntil (fun c => decide (c = '='))
        ((kc :: kt) ++ [' ', '='])) = kc :: kt := by
      rw [show (kc :: kt) ++ [' ', '='] = (kc :: kt) ++ ' ' :: '=' :: ([] : Str)
          from rfl, takeUntil_item _ heq, trim_key htl htr (by simp)]
    have hval2 : trim (afterFirst (fun c => decide (c = '='))
        ((kc :: kt) ++ [' ', '='])) = ([] : Str) := by
      rw [show (kc :: kt) ++ [' ', '='] = (kc :: kt) ++ ' ' :: '=' :: ([] : Str)
          from rfl, afterFirst_item _ heq]
      rfl
    rw [if_neg (by simp), if_neg (by simp [hkcb]),
      if_pos (show ((kc :: kt) ++ [' ', '=']).any (fun c => decide (c = '=')) = true by
        rw [List.any_eq_true]; exact ⟨'=', by simp, by simp⟩),
      hkey2, hval2, if_neg (by simp)]
  | cons vc vt =>
    have hglast : ((kc :: kt) ++ ' ' :: '=' :: ' ' :: vc :: vt).getLast?
        = (vc :: vt).getLast? := by
      rw [show (kc :: kt) ++ ' ' :: '=' :: ' ' :: vc :: vt
          = ((kc :: kt) ++ [' ', '=', ' ']) ++ vc :: vt by simp,
        List.getLast?_append]
      have : (vc :: vt).getLast?.isSome = true := by
        rw [List.getLast?_isSome]
        simp
      cases hsome : (vc :: vt).getLast? with
      | none => rw [hsome] at this; simp at this
      | some d => simp
    have htrim : trim ((kc :: kt) ++ ' ' :: '=' :: ' ' :: vc :: vt)
        = (kc :: kt) ++ ' ' :: '=' :: ' ' :: vc :: vt := by
      apply trim_eq_self_of_ends
      · intro c hc
        obtain rfl := Option.some.inj hc
        exact hkc
      · intro c hc
        rw [hglast] at hc
        exact getLast_not_ws_of_trimRight_eq vtr c hc
    rw [hshape]
    simp only [parse_line, htake, htrim]
    rw [if_neg (by simp), if_neg (by simp [hkcb]), if_pos hhas, hkey, hval,
      if_neg (by simp)]

/-! ### C1: iteration is the backing list for aligned maps, and the emitted
lines classify back to the emitting structure -/

theorem hmGet_of_mem_nodup {K V : Type} [DecidableEq K] {l : List (K × V)}
    (hnd : (l.map Prod.fst).Nodup) : ∀ p ∈ l, hmGet l p.1 = some p.2 := by
  induction l with
  | nil => intro p hp; simp at hp
  | cons q rest ih =>
    intro p hp
    rcases List.mem_cons.mp hp with rfl | hp
    · rw [hmGet, List.find?_cons_of_pos _ (by simp)]
      rfl
    · have hq : ¬(q.1 = p.1) := by
        rw [List.map_cons, List.nodup_cons] at hnd
        exact fun e => hnd.1 (e ▸ List.mem_map_of_mem Prod.fst hp)
      rw [hmGet, List.find?_cons_of_neg _ (by simp [hq]), ← hmGet]
      exact ih (by rw [List.map_cons, List.nodup_cons] at hnd; exact hnd.2) p hp

theorem iterGo_map_fst {K V : Type} [DecidableEq K] (base : List (K × V)) :
    ∀ (l : List (K × V)), (∀ p ∈ l, hmGet base p.1 = some p.2) →
      OrderedHashMap.iterGo base (l.map Prod.fst) = l
  | [], _ => rfl
  | p :: rest, h => by
    rw [List.map_cons, OrderedHashMap.iterGo, h p (List.mem_cons_self _ _),
      iterGo_map_fst base rest fun q hq => h q (List.mem_cons_of_mem _ hq)]

theorem iter_eq_base {K V : Type} [DecidableEq K] {m : OrderedHashMap K V}
    (ha : m.base.map Prod.fst = m.keys) (hnd : (m.base.map Prod.fst).Nodup) :
    m.iter = m.base := by
  rw [OrderedHashMap.iter, ← ha, iterGo_map_fst m.base m.base (hmGet_of_mem_nodup hnd)]

theorem forall2_map_map {α β γ : Type} {R : β → γ → Prop} {f : α → β} {g : α → γ}
    (l : List α) (h : ∀ a ∈ l, R (f a) (g a)) : List.Forall₂ R (l.map f) (l.map g) := by
  induction l with
  | nil => constructor
  | cons a t ih =>
    exact List.Forall₂.cons (h a (List.mem_cons_self _ _))
      (ih fun b hb => h b (List.mem_cons_of_mem _ hb))

theorem block_forall2 {s : Str × Section} (hs : SecOk s) :
    List.Forall₂ (fun l p => ∀ i, parse_line l i = .ok p) (blockLines s)
      (.Section s.1 :: s.2.iter.map fun kv => .Value kv.1 kv.2) := by
  obtain ⟨hal, hnd, _, hname, hitems⟩ := hs
  rw [blockLines, iter_eq_base hal (hal ▸ hnd)]
  refine List.Forall₂.cons (fun i => parse_line_header hname i) ?_
  exact forall2_map_map s.2.base fun kv hkv => fun i =>
    parse_line_item (hitems kv hkv).1 (hitems kv hkv).2 i

theorem docLines_forall2 :
    ∀ (secs : List (Str × Section)), (∀ s ∈ secs, SecOk s) →
      List.Forall₂ (fun l p => ∀ i, parse_line l i = .ok p)
        (docLines secs) (parsedSeq secs)
  | [], _ => List.Forall₂.nil
  | [s], h => by
    rw [docLines, parsedSeq]
    exact block_forall2 (h s (List.mem_cons_self _ _))
  | s :: s2 :: rest, h => by
    rw [docLines, parsedSeq]
    refine List.rel_append (block_forall2 (h s (List.mem_cons_self _ _)))
      (List.Forall₂.cons (fun i => parse_line_blank i) ?_)
    exact docLines_forall2 (s2 :: rest) fun x hx => h x (List.mem_cons_of_mem _ hx)

theorem blockLines_ne_nil {s : Str × Section} : ∀ l ∈ blockLines s, l ≠ [] := by
  intro l hl
  rw [blockLines] at hl
  rcases List.mem_cons.mp hl with rfl | hl
  · simp
  · obtain ⟨kv, _, rfl⟩ := List.mem_map.mp hl
    simp [specLine]

theorem blockLines_line_facts {s : Str × Section} (hs : SecOk s) :
    ∀ l ∈ blockLines s, '\n' ∉ l ∧ l.getLast? ≠ some '\r' := by
  obtain ⟨hal, hnd2, _, hname, hitems⟩ := hs
  obtain ⟨_, hnl, _, _⟩ := safeNameB_spec hname
  intro l hl
  rw [blockLines, iter_eq_base hal (hal ▸ hnd2)] at hl
  rcases List.mem_cons.mp hl with rfl | hl
  · constructor
    · intro hmem
      rcases List.mem_append.mp hmem with hmem | hmem
      · rcases List.mem_cons.mp hmem with h0 | hmem
        · exact absurd h0.symm (by decide)
        · exact hnl hmem
      · rcases List.mem_singleton.mp hmem with h0
        exact absurd h0 (by decide)
    · rw [List.getLast?_concat]
      simp
  · obtain ⟨kv, hkv, rfl⟩ := List.mem_map.mp hl
    obtain ⟨hkB, hvB⟩ := hitems kv hkv
    obtain ⟨_, _, knl, kcr, _, _, _, _⟩ := safeKeyB_spec hkB
    obtain ⟨_, vnl, vcr, _, _⟩ := safeValueB_spec hvB
    constructor
    · intro hmem
      rw [specLine] at hmem
      rcases List.mem_append.mp hmem with hmem | hmem
      · rcases List.mem_append.mp hmem with hmem | hmem
        · exact knl hmem
        · rcases List.mem_cons.mp hmem with h0 | hmem
          · exact absurd h0.symm (by decide)
          · rcases List.mem_cons.mp hmem with h0 | hmem
            · exact absurd h0.symm (by decide)
            · rcases List.mem_singleton.mp hmem with h0
              exact absurd h0 (by decide)
      · exact vnl hmem
    · rw [specLine, List.getLast?_append]
      cases hv2 : kv.2 with
      | nil => simp
      | cons vc vt =>
        cases hd : (vc :: vt).getLast? with
        | none => simp at hd
        | some d =>
          have hdm : d ∈ vc :: vt := List.mem_of_getLast?_eq_some hd
          have hdr : ¬(d = '\r') := fun e => vcr (by rw [hv2]; exact e ▸ hdm)
          simp [hdr]

theorem docLines_ne_nil :
    ∀ (secs : List (Str × Section)), secs ≠ [] → docLines secs ≠ []
  | [], h => absurd rfl h
  | [s], _ => by rw [docLines, blockLines]; simp
  | s :: s2 :: rest, _ => by rw [docLines, blockLines]; simp

theorem docLines_getLast_ne_nil :
    ∀ (secs : List (Str × Section)), secs ≠ [] → (docLines secs).getLast? ≠ some []
  | [], h => absurd rfl h
  | [s], _ => by
    rw [docLines]
    cases hd : (blockLines s).getLast? with
    | none => simp
    | some x =>
      have hx := blockLines_ne_nil x (List.mem_of_getLast?_eq_some hd)
      simp [hx]
  | s :: s2 :: rest, _ => by
    rw [docLines, List.getLast?_append]
    cases hDL : docLines (s2 :: rest) with
    | nil => exact absurd hDL (docLines_ne_nil _ (by simp))
    | cons d ds =>
      have hrec := docLines_getLast_ne_nil (s2 :: rest) (by simp)
      rw [hDL] at hrec
      rw [List.getLast?_cons_cons]
      cases hg : (d :: ds).getLast? with
      | none => simp at hg
      | some x =>
        rw [hg] at hrec
        rw [show (some x).or ((blockLines s).getLast?) = some x from rfl]
        exact hrec

theorem docLines_line_facts :
    ∀ (secs : List (Str × Section)), (∀ s ∈ secs, SecOk s) →
      ∀ l ∈ docLines secs, '\n' ∉ l ∧ l.getLast? ≠ some '\r'
  | [], _, l, hl => by simp [docLines] at hl
  | [s], h, l, hl => by
    rw [docLines] at hl
    exact blockLines_line_facts (h s (List.mem_cons_self _ _)) l hl
  | s :: s2 :: rest, h, l, hl => by
    rw [docLines] at hl
    rcases List.mem_append.mp hl with hl | hl
    · exact blockLines_line_facts (h s (List.mem_cons_self _ _)) l hl
    · rcases List.mem_cons.mp hl with rfl | hl
      · exact ⟨by simp, by simp⟩
      · exact docLines_line_facts (s2 :: rest)
          (fun x hx => h x (List.mem_cons_of_mem _ hx)) l hl

theorem intercalate_append_cons (sep : Str) :
    ∀ (xs : List Str) (y : Str) (ys : List Str), xs ≠ [] →
      List.intercalate sep (xs ++ y :: ys)
        = List.intercalate sep xs ++ sep ++ List.intercalate sep (y :: ys)
  | [], _, _, h => absurd rfl h
  | [x], y, ys, _ => by
    rw [List.singleton_append, intercalate_two,
      show List.intercalate sep [x] = x by simp [List.intercalate]]
  | x :: x2 :: xs, y, ys, _ => by
    have hrec := intercalate_append_cons sep (x2 :: xs) y ys (by simp)
    rw [show ((x :: x2 :: xs) ++ y :: ys) = x :: x2 :: (xs ++ y :: ys) from rfl,
      intercalate_two,
      show (x2 :: (xs ++ y :: ys)) = (x2 :: xs) ++ y :: ys from rfl,
      hrec, intercalate_two]
    simp [List.append_assoc]

theorem specSerialize_eq_intercalate_docLines :
    ∀ (secs : List (Str × Section)), secs ≠ [] →
      List.intercalate ['\n', '\n'] (secs.map specBlock)
        = List.intercalate ['\n'] (docLines secs)
  | [], h => absurd rfl h
  | [s], _ => by
    rw [docLines, List.map_singleton,
      show List.intercalate ['\n', '\n'] [specBlock s] = specBlock s by
        simp [List.intercalate]]
    rfl
  | s :: s2 :: rest, _ => by
    have hrec2 := specSerialize_eq_intercalate_docLines (s2 :: rest) (by simp)
    rw [List.map_cons] at hrec2
    rw [List.map_cons, List.map_cons, intercalate_two, hrec2, docLines,
      intercalate_append_cons ['\n'] (blockLines s) [] (docLines (s2 :: rest))
        (by rw [blockLines]; simp),
      show List.intercalate ['\n'] ([] :: docLines (s2 :: rest))
        = [] ++ ['\n'] ++ List.intercalate ['\n'] (docLines (s2 :: rest)) by
        cases hDL : docLines (s2 :: rest) with
        | nil => exact absurd hDL (docLines_ne_nil _ (by simp))
        | cons d ds => rw [intercalate_two]]
    rw [show specBlock s = List.intercalate ['\n'] (blockLines s) from rfl]
    simp [List.append_assoc]

theorem rustLines_toBuffer {ini : Ini}
    (hal : ini.document.base.map Prod.fst = ini.document.keys)
    (hnd : ini.document.keys.Nodup)
    (hsecs : ∀ s ∈ ini.document.base, SecOk s)
    (hne : ini.document.base ≠ []) :
    rustLines ini.toBuffer = docLines ini.document.base := by
  have hiter : ini.document.iter = ini.document.base := iter_eq_base hal (hal ▸ hnd)
  rw [toBuffer_eq_specSerialize, specSerialize, hiter,
    specSerialize_eq_intercalate_docLines _ hne]
  exact rustLines_intercalate (docLines_ne_nil _ hne)
    (fun l hl => (docLines_line_facts _ hsecs l hl).1)
    (docLines_getLast_ne_nil _ hne)
    (fun l hl => (docLines_line_facts _ hsecs l hl).2)

/-! ### C1: replaying the classified lines rebuilds the document -/

theorem fromStringStep_ok {l : Str} {p : Parsed} (h : ∀ i, parse_line l i = .ok p)
    (n : Nat) (ini : Ini) : Ini.fromStringStep ini (n, l) = .ok (ini.applyParsed p) := by
  cases p <;> simp [Ini.fromStringStep, h n, Ini.applyParsed]

theorem foldlM_forall2_ok {ls : List Str} {ps : List Parsed}
    (h : List.Forall₂ (fun l p => ∀ i, parse_line l i = .ok p) ls ps) :
    ∀ (n : Nat) (ini : Ini),
      (ls.enumFrom n).foldlM Ini.fromStringStep ini
        = .ok (ps.foldl Ini.applyParsed ini) := by
  induction h with
  | nil => intro n ini; rfl
  | cons h1 _ ih =>
    intro n ini
    rw [List.enumFrom_cons, List.foldlM_cons, fromStringStep_ok h1 n ini,
      exceptBind_ok, List.foldl_cons]
    exact ih (n + 1) _

theorem hmContains_eq_mem {K V : Type} [DecidableEq K] (l : List (K × V)) (k : K) :
    hmContains l k = true ↔ k ∈ l.map Prod.fst := by
  rw [hmContains, List.any_eq_true]
  constructor
  · rintro ⟨p, hp, he⟩
    rw [decide_eq_true_eq] at he
    exact he ▸ List.mem_map_of_mem Prod.fst hp
  · intro hm
    obtain ⟨p, hp, he⟩ := List.mem_map.mp hm
    exact ⟨p, hp, by rw [decide_eq_true_eq]; exact he⟩

theorem hmGet_append_last {K V : Type} [DecidableEq K] :
    ∀ (B1 : List (K × V)) (n : K) (sec : V), n ∉ B1.map Prod.fst →
      hmGet (B1 ++ [(n, sec)]) n = some sec := by
  intro B1 n sec h
  induction B1 with
  | nil => simp [hmGet, List.find?]
  | cons p rest ih =>
    simp only [List.map_cons, List.mem_cons, not_or] at h
    rw [List.cons_append, hmGet,
      List.find?_cons_of_neg _ (by simp; exact fun e => h.1 e.symm), ← hmGet]
    exact ih h.2

theorem map_replace_last {K V : Type} [DecidableEq K] :
    ∀ (B1 : List (K × V)) (n : K) (sec v : V), n ∉ B1.map Prod.fst →
      ((B1 ++ [(n, sec)]).map fun p => if p.1 = n then (n, v) else p)
        = B1 ++ [(n, v)] := by
  intro B1 n sec v h
  induction B1 with
  | nil => simp
  | cons p rest ih =>
    simp only [List.map_cons, List.mem_cons, not_or] at h
    rw [List.cons_append, List.map_cons, if_neg (fun e => h.1 e.symm),
      ih h.2, List.cons_append]

theorem item_fold_last :
    ∀ (items : List (Str × Str)) (B1 : List (Str × Section)) (keys0 : List Str)
      (n : Str) (sec : Section), n ∉ B1.map Prod.fst →
      (items.map fun kv => Parsed.Value kv.1 kv.2).foldl Ini.applyParsed
          ⟨⟨B1 ++ [(n, sec)], keys0⟩, n⟩
        = ⟨⟨B1 ++ [(n, items.foldl (fun s kv => (s.insert kv.1 kv.2).1) sec)],
            keys0⟩, n⟩
  | [], B1, keys0, n, sec, h => rfl
  | kv :: rest, B1, keys0, n, sec, h => by
    rw [List.map_cons, List.foldl_cons, List.foldl_cons]
    have hc : hmContains (B1 ++ [(n, sec)]) n = true := by
      rw [hmContains_eq_mem, List.map_append]
      exact List.mem_append_right _
        (by rw [List.map_singleton]; exact List.mem_singleton_self _)
    have hg : hmGet (B1 ++ [(n, sec)]) n = some sec := hmGet_append_last B1 n sec h
    have hstep : Ini.applyParsed ⟨⟨B1 ++ [(n, sec)], keys0⟩, n⟩
          (Parsed.Value kv.1 kv.2)
        = ⟨⟨B1 ++ [(n, (sec.insert kv.1 kv.2).1)], keys0⟩, n⟩ := by
      show (⟨⟨B1 ++ [(n, sec)], keys0⟩, n⟩ : Ini).item kv.1 kv.2 = _
      rw [Ini.item]
      simp only [OrderedHashMap.entryModify, hc, hg, if_true, Option.getD_some,
        hmInsert, map_replace_last B1 n sec _ h]
    rw [hstep]
    exact item_fold_last rest B1 keys0 n _ h

theorem sec_fold_build :
    ∀ (items done : List (Str × Str)),
      ((done ++ items).map Prod.fst).Nodup →
      items.foldl (fun s kv => (s.insert kv.1 kv.2).1)
          (⟨done, done.map Prod.fst⟩ : Section)
        = ⟨done ++ items, (done ++ items).map Prod.fst⟩
  | [], done, _ => by simp
  | kv :: rest, done, h => by
    rw [List.foldl_cons]
    have hnc : hmContains done kv.1 = false := by
      cases hb : hmContains done kv.1 with
      | false => rfl
      | true =>
        have hm := (hmContains_eq_mem _ _).mp hb
        rw [List.map_append, List.map_cons] at h
        exact absurd (List.mem_cons_self _ _)
          (List.disjoint_of_nodup_append h hm)
    have hstep : (OrderedHashMap.insert ⟨done, done.map Prod.fst⟩ kv.1 kv.2).1
        = ⟨done ++ [kv], (done ++ [kv]).map Prod.fst⟩ := by
      rw [OrderedHashMap.insert]
      simp only [hnc, Bool.false_eq_true, if_false, hmInsert, List.map_append]
      rfl
    rw [hstep]
    have hres := sec_fold_build rest (done ++ [kv])
      (by rw [List.append_assoc]; simpa using h)
    rw [hres]
    simp

theorem block_foldl (s : Str × Section) (ini0 : Ini)
    (hfresh : s.1 ∉ ini0.document.base.map Prod.fst)
    (hs : SecOk s) :
    (Parsed.Section s.1 :: s.2.iter.map fun kv => Parsed.Value kv.1 kv.2).foldl
        Ini.applyParsed ini0
      = ⟨⟨ini0.document.base ++ [(s.1, s.2)],
          ini0.document.keys ++ [s.1]⟩, s.1⟩ := by
  obtain ⟨hal, hnd, hne, _, _⟩ := hs
  rw [List.foldl_cons,
    show Ini.applyParsed ini0 (Parsed.Section s.1) = ini0.section_ s.1 from rfl,
    iter_eq_base hal (hal ▸ hnd)]
  cases hbase : s.2.base with
  | nil => exact absurd hbase hne
  | cons kv0 ivs =>
    rw [List.map_cons, List.foldl_cons]
    have hnc : hmContains ini0.document.base s.1 = false := by
      cases hb : hmContains ini0.document.base s.1 with
      | false => rfl
      | true => exact absurd ((hmContains_eq_mem _ _).mp hb) hfresh
    have hstep : Ini.applyParsed (ini0.section_ s.1) (Parsed.Value kv0.1 kv0.2)
        = ⟨⟨ini0.document.base ++ [(s.1, ⟨[kv0], [kv0].map Prod.fst⟩)],
            ini0.document.keys ++ [s.1]⟩, s.1⟩ := by
      show (ini0.section_ s.1).item kv0.1 kv0.2 = _
      rw [Ini.item, Ini.section_]
      simp only [OrderedHashMap.entryModify, hnc, Bool.false_eq_true, if_false,
        hmGet_eq_none hnc, Option.getD_none, hmInsert]
      rfl
    rw [hstep,
      item_fold_last ivs ini0.document.base (ini0.document.keys ++ [s.1]) s.1 _
        hfresh]
    have hsec : ivs.foldl (fun s kv => (s.insert kv.1 kv.2).1)
          (⟨[kv0], [kv0].map Prod.fst⟩ : Section)
        = ⟨s.2.base, s.2.base.map Prod.fst⟩ := by
      have hres := sec_fold_build ivs [kv0]
        (by rw [show ([kv0] ++ ivs) = s.2.base by rw [hbase]; rfl]
            exact hal ▸ hnd)
      rw [hres, show ([kv0] ++ ivs) = s.2.base by rw [hbase]; rfl]
    rw [hsec, show (⟨s.2.base, s.2.base.map Prod.fst⟩ : Section) = s.2 by
      rw [hal]]

theorem parsedSeq_foldl :
    ∀ (secs : List (Str × Section)) (ini0 : Ini),
      ((ini0.document.base.map Prod.fst) ++ secs.map Prod.fst).Nodup →
      (∀ s ∈ secs, SecOk s) →
      ∃ last, (parsedSeq secs).foldl Ini.applyParsed ini0
        = ⟨⟨ini0.document.base ++ secs,
            ini0.document.keys ++ secs.map Prod.fst⟩, last⟩
  | [], ini0, _, _ => ⟨ini0.last_section_name, by simp [parsedSeq]⟩
  | [s], ini0, hnd, hok => by
    have hfresh : s.1 ∉ ini0.document.base.map Prod.fst := by
      intro hm
      rw [List.map_singleton] at hnd
      exact List.disjoint_of_nodup_append hnd hm (List.mem_singleton_self _)
    refine ⟨s.1, ?_⟩
    rw [parsedSeq, block_foldl s ini0 hfresh (hok s (List.mem_cons_self _ _))]
    simp
  | s :: s2 :: rest, ini0, hnd, hok => by
    have hfresh : s.1 ∉ ini0.document.base.map Prod.fst := by
      intro hm
      rw [List.map_cons] at hnd
      exact List.disjoint_of_nodup_append hnd hm (List.mem_cons_self _ _)
    rw [parsedSeq, List.foldl_append,
      block_foldl s ini0 hfresh (hok s (List.mem_cons_self _ _)), List.foldl_cons,
      show Ini.applyParsed ⟨⟨ini0.document.base ++ [(s.1, s.2)],
          ini0.document.keys ++ [s.1]⟩, s.1⟩ Parsed.Empty
        = ⟨⟨ini0.document.base ++ [(s.1, s.2)],
            ini0.document.keys ++ [s.1]⟩, s.1⟩ from rfl]
    obtain ⟨last, hrec⟩ := parsedSeq_foldl (s2 :: rest)
      ⟨⟨ini0.document.base ++ [(s.1, s.2)], ini0.document.keys ++ [s.1]⟩, s.1⟩
      (by
        show (((ini0.document.base ++ [(s.1, s.2)]).map Prod.fst)
          ++ (s2 :: rest).map Prod.fst).Nodup
        rw [List.map_append]
        simpa [List.append_assoc] using hnd)
      (fun x hx => hok x (List.mem_cons_of_mem _ hx))
    refine ⟨last, ?_⟩
    rw [hrec]
    simp [List.append_assoc]

/-! ### C1: safe structured insertion maintains the builder invariant -/

theorem map_fst_map_replace {K V : Type} [DecidableEq K] (l : List (K × V))
    (k : K) (v : V) :
    ((l.map fun p => if p.1 = k then (k, v) else p).map Prod.fst)
      = l.map Prod.fst := by
  induction l with
  | nil => rfl
  | cons p rest ih =>
    rw [List.map_cons, List.map_cons, List.map_cons, ih]
    by_cases hp : p.1 = k
    · rw [if_pos hp, hp]
    · rw [if_neg hp]

theorem mem_map_replace {K V : Type} [DecidableEq K] {l : List (K × V)} {k : K}
    {v : V} {q : K × V}
    (hq : q ∈ l.map fun p => if p.1 = k then (k, v) else p) :
    q ∈ l ∨ q = (k, v) := by
  obtain ⟨p, hp, he⟩ := List.mem_map.mp hq
  by_cases h : p.1 = k
  · rw [if_pos h] at he
    exact Or.inr he.symm
  · rw [if_neg h] at he
    exact Or.inl (he ▸ hp)

theorem mem_hmInsert {K V : Type} [DecidableEq K] {l : List (K × V)} {k : K}
    {v : V} {q : K × V} (hq : q ∈ hmInsert l k v) : q ∈ l ∨ q = (k, v) := by
  rw [hmInsert] at hq
  by_cases hc : hmContains l k = true
  · rw [if_pos hc] at hq
    exact mem_map_replace hq
  · rw [if_neg hc] at hq
    rcases List.mem_append.mp hq with h | h
    · exact Or.inl h
    · exact Or.inr (List.mem_singleton.mp h)

theorem map_fst_hmInsert_true {K V : Type} [DecidableEq K] {l : List (K × V)}
    {k : K} (v : V) (hc : hmContains l k = true) :
    (hmInsert l k v).map Prod.fst = l.map Prod.fst := by
  rw [hmInsert, if_pos hc, map_fst_map_replace]

theorem map_fst_hmInsert_false {K V : Type} [DecidableEq K] {l : List (K × V)}
    {k : K} (v : V) (hc : hmContains l k = false) :
    (hmInsert l k v).map Prod.fst = l.map Prod.fst ++ [k] := by
  rw [hmInsert, if_neg (by simp [hc]), List.map_append]
  rfl

theorem hmGet_isSome_of_contains {K V : Type} [DecidableEq K] {l : List (K × V)}
    {k : K} (h : hmContains l k = true) : ∃ v, hmGet l k = some v := by
  cases hg : hmGet l k with
  | some v => exact ⟨v, rfl⟩
  | none =>
    exfalso
    rw [hmGet, Option.map_eq_none'] at hg
    rw [hmContains, List.any_eq_true] at h
    obtain ⟨p, hp, hpred⟩ := h
    exact absurd hpred (by simpa using List.find?_eq_none.mp hg p hp)

theorem mem_of_hmGet {K V : Type} [DecidableEq K] {l : List (K × V)} {k : K}
    {v : V} (h : hmGet l k = some v) : (k, v) ∈ l := by
  rw [hmGet] at h
  obtain ⟨p, hfind, hsnd⟩ := Option.map_eq_some'.mp h
  have hm := List.mem_of_find?_eq_some hfind
  have hp : p.1 = k := by simpa using List.find?_some hfind
  have he : (k, v) = p := by rw [← hp, ← hsnd]
  exact he ▸ hm

theorem hmInsert_ne_nil {K V : Type} [DecidableEq K] {l : List (K × V)} {k : K}
    {v : V} : hmInsert l k v ≠ [] := by
  rw [hmInsert]
  by_cases hc : hmContains l k = true
  · rw [if_pos hc]
    intro h0
    have hl : l = [] := List.map_eq_nil_iff.mp h0
    rw [hl] at hc
    simp [hmContains] at hc
  · rw [if_neg hc]
    simp

theorem secOk_insert {n k v : Str} {sec : Section} (h : SecOk (n, sec))
    (hk : safeKeyB k = true) (hv : safeValueB v = true) :
    SecOk (n, (sec.insert k v).1) := by
  obtain ⟨hal, hnd, hne, hname, hitems⟩ := h
  rw [OrderedHashMap.insert]
  by_cases hc : hmContains sec.base k = true
  · refine ⟨?_, ?_, ?_, hname, ?_⟩
    · show (hmInsert sec.base k v).map Prod.fst
        = if hmContains sec.base k = true then sec.keys else sec.keys ++ [k]
      rw [if_pos hc, map_fst_hmInsert_true v hc, hal]
    · show (if hmContains sec.base k = true then sec.keys
        else sec.keys ++ [k]).Nodup
      rw [if_pos hc]
      exact hnd
    · exact hmInsert_ne_nil
    · intro q hq
      rcases mem_hmInsert hq with hq | rfl
      · exact hitems q hq
      · exact ⟨hk, hv⟩
  · have hcf : hmContains sec.base k = false := by
      cases hb : hmContains sec.base k with
      | false => rfl
      | true => exact absurd hb hc
    have hknot : k ∉ sec.keys := fun hm =>
      hc ((hmContains_eq_mem _ _).mpr (hal ▸ hm))
    refine ⟨?_, ?_, ?_, hname, ?_⟩
    · show (hmInsert sec.base k v).map Prod.fst
        = if hmContains sec.base k = true then sec.keys else sec.keys ++ [k]
      rw [if_neg hc, map_fst_hmInsert_false v hcf, hal]
    · show (if hmContains sec.base k = true then sec.keys
        else sec.keys ++ [k]).Nodup
      rw [if_neg hc]
      exact List.Nodup.append hnd (List.nodup_singleton k)
        (by simpa [List.disjoint_singleton] using hknot)
    · exact hmInsert_ne_nil
    · intro q hq
      rcases mem_hmInsert hq with hq | rfl
      · exact hitems q hq
      · exact ⟨hk, hv⟩

theorem builderInv_new : BuilderInv Ini.new := by
  refine ⟨rfl, List.nodup_nil, by decide, ?_⟩
  intro p hp
  simp [Ini.new, OrderedHashMap.new] at hp

theorem builderInv_section {ini : Ini} (h : BuilderInv ini) {n : Str}
    (hn : safeNameB n = true) : BuilderInv (ini.section_ n) :=
  ⟨h.1, h.2.1, hn, h.2.2.2⟩

theorem builderInv_item {ini : Ini} (h : BuilderInv ini) {k v : Str}
    (hk : safeKeyB k = true) (hv : safeValueB v = true) :
    BuilderInv (ini.item k v) := by
  obtain ⟨hal, hnd, hlast, hsecs⟩ := h
  rw [Ini.item, BuilderInv]
  by_cases hc : hmContains ini.document.base ini.last_section_name = true
  · obtain ⟨sec0, hg⟩ := hmGet_isSome_of_contains hc
    refine ⟨?_, ?_, hlast, ?_⟩
    · show (hmInsert ini.document.base ini.last_section_name _).map Prod.fst
        = if hmContains ini.document.base ini.last_section_name = true
          then ini.document.keys else ini.document.keys ++ [ini.last_section_name]
      rw [if_pos hc, map_fst_hmInsert_true _ hc, hal]
    · show (if hmContains ini.document.base ini.last_section_name = true
        then ini.document.keys
        else ini.document.keys ++ [ini.last_section_name]).Nodup
      rw [if_pos hc]
      exact hnd
    · intro p hp
      rcases mem_hmInsert hp with hp | rfl
      · exact hsecs p hp
      · rw [hg, Option.getD_some]
        exact secOk_insert (hsecs _ (mem_of_hmGet hg)) hk hv
  · have hcf : hmContains ini.document.base ini.last_section_name = false := by
      cases hb : hmContains ini.document.base ini.last_section_name with
      | false => rfl
      | true => exact absurd hb hc
    have hknot : ini.last_section_name ∉ ini.document.keys := fun hm =>
      hc ((hmContains_eq_mem _ _).mpr (hal ▸ hm))
    refine ⟨?_, ?_, hlast, ?_⟩
    · show (hmInsert ini.document.base ini.last_section_name _).map Prod.fst
        = if hmContains ini.document.base ini.last_section_name = true
          then ini.document.keys else ini.document.keys ++ [ini.last_section_name]
      rw [if_neg hc, map_fst_hmInsert_false _ hcf, hal]
    · show (if hmContains ini.document.base ini.last_section_name = true
        then ini.document.keys
        else ini.document.keys ++ [ini.last_section_name]).Nodup
      rw [if_neg hc]
      exact List.Nodup.append hnd (List.nodup_singleton _)
        (by simpa [List.disjoint_singleton] using hknot)
    · intro p hp
      rcases mem_hmInsert hp with hp | rfl
      · exact hsecs p hp
      · rw [hmGet_eq_none hcf, Option.getD_none]
        refine ⟨rfl, List.nodup_singleton _,
          by rw [show (OrderedHashMap.new.insert k v).1.base = [(k, v)] from rfl]
             simp,
          hlast, ?_⟩
        intro q hq
        rcases List.mem_singleton.mp hq with rfl
        exact ⟨hk, hv⟩

theorem builderInv_runOps :
    ∀ (ops : List BuildOp) (ini : Ini), BuilderInv ini → SafeOps ops →
      BuilderInv (runOps ini ops)
  | [], _, h, _ => h
  | .sec n :: rest, ini, h, hs => by
    rw [runOps]
    exact builderInv_runOps rest _
      (builderInv_section h (hs _ (List.mem_cons_self _ _)))
      (fun op hop => hs op (List.mem_cons_of_mem _ hop))
  | .item k v :: rest, ini, h, hs => by
    rw [runOps]
    have hhead := hs _ (List.mem_cons_self _ _)
    rw [show safeOpB (BuildOp.item k v) = (safeKeyB k && safeValueB v) from rfl,
      Bool.and_eq_true] at hhead
    exact builderInv_runOps rest _ (builderInv_item h hhead.1 hhead.2)
      (fun op hop => hs op (List.mem_cons_of_mem _ hop))

/-- C1 (amended): for every document built purely via structured insertion from
serialization-safe strings (no `;`, newlines or carriage returns; keys nonempty,
trimmed, free of `=` and not starting with `[`; values trimmed; section names
with no bracket character at either end), parsing the serialized text succeeds
and yields a document with the same sections in the same order, the same keys
in the same order within each section, and the same values. -/
theorem structured_roundtrip (ops : List BuildOp) (h : SafeOps ops) :
    ∃ ini', Ini.from_string (runOps Ini.new ops).toBuffer = .ok ini' ∧
      ini'.sections = (runOps Ini.new ops).sections := by
  obtain ⟨hal, hnd, hlastS, hsecs⟩ := builderInv_runOps ops Ini.new builderInv_new h
  cases hbase : (runOps Ini.new ops).document.base with
  | nil =>
    have hiter : (runOps Ini.new ops).document.iter
        = (runOps Ini.new ops).document.base := iter_eq_base hal (hal ▸ hnd)
    have hbuf : (runOps Ini.new ops).toBuffer = [] := by
      rw [toBuffer_eq_specSerialize, specSerialize, hiter, hbase]
      rfl
    refine ⟨Ini.new, by rw [hbuf]; rfl, ?_⟩
    rw [Ini.sections, Ini.sections, hiter, hbase]
    rfl
  | cons s0 srest =>
    have hline : rustLines (runOps Ini.new ops).toBuffer
        = docLines (runOps Ini.new ops).document.base :=
      rustLines_toBuffer hal hnd hsecs (by rw [hbase]; simp)
    have hfold := foldlM_forall2_ok
      (docLines_forall2 (runOps Ini.new ops).document.base hsecs) 0 Ini.new
    have hfs : Ini.from_string (runOps Ini.new ops).toBuffer
        = .ok ((parsedSeq (runOps Ini.new ops).document.base).foldl
            Ini.applyParsed Ini.new) := by
      rw [Ini.from_string, hline,
        show (docLines (runOps Ini.new ops).document.base).enum
          = (docLines (runOps Ini.new ops).document.base).enumFrom 0 from rfl,
        hfold]
    obtain ⟨last, hres⟩ := parsedSeq_foldl (runOps Ini.new ops).document.base
      Ini.new (by simpa using (hal ▸ hnd)) hsecs
    refine ⟨_, hfs, ?_⟩
    rw [hres, Ini.sections, Ini.sections,
      show (⟨⟨Ini.new.document.base ++ (runOps Ini.new ops).document.base,
          Ini.new.document.keys
            ++ ((runOps Ini.new ops).document.base).map Prod.fst⟩,
          last⟩ : Ini).document.iter
        = (runOps Ini.new ops).document.base from
        iter_eq_base rfl (by simpa using (hal ▸ hnd)),
      iter_eq_base hal (hal ▸ hnd)]

theorem structured_roundtrip_witness :
    SafeOps [BuildOp.sec "a".data, BuildOp.item "k".data "1".data] ∧
    ∃ ini', Ini.from_string
        (runOps Ini.new [BuildOp.sec "a".data,
          BuildOp.item "k".data "1".data]).toBuffer = .ok ini' ∧
      ini'.sections = (runOps Ini.new [BuildOp.sec "a".data,
        BuildOp.item "k".data "1".data]).sections :=
  ⟨by decide, structured_roundtrip
    [BuildOp.sec "a".data, BuildOp.item "k".data "1".data] (by decide)⟩

end Tini

